import Mathlib

/-!
Verification of the klaros normalization-and-export pipeline.

This file gives a shallow embedding, in Lean 4, of the core of the
repository: the canonical chat data model (`models.py`), the two
platform loaders (`chatgpt_loader.py`, `claude_loader.py`), the three
processors (`cleaner.py`, `privacy.py`, `tagger.py`) and the two
exporters relevant to the checked properties (`json_exporter.py`,
`aspendos_exporter.py`).  Python strings are modelled as `String` /
`List Char`; Python regular expressions are modelled by a small
backtracking matcher (`mtry`) over a regex syntax tree, with the
repository's fixed patterns transcribed literally; calendar times are
an external-library boundary and are modelled as the raw source value
(`TimeVal`).  Fallible code returns `Option`/`Except`.
-/

set_option maxRecDepth 10000

namespace Klaros

/-! ## String primitives shared by the embedding -/

/-- Whitespace characters recognised by Python's `str.strip` and `\s`
(ASCII range). -/
def pyWs (c : Char) : Bool :=
  c = ' ' || c = '\t' || c = '\n' || c = '\r' || c = '\x0b' || c = '\x0c'

/-- Python `str.strip` on the right: drop trailing whitespace. -/
def pytrimEnd : List Char → List Char
  | [] => []
  | c :: rest =>
    match pytrimEnd rest with
    | [] => if pyWs c then [] else [c]
    | r => c :: r

/-- Python `str.strip`: drop leading and trailing whitespace. -/
def pytrim (l : List Char) : List Char := pytrimEnd (l.dropWhile pyWs)

/-- `str.strip` lifted to `String`. -/
def pystrip (s : String) : String := ⟨pytrim s.data⟩

/-- Python `str.split` on a single newline character. -/
def splitNl : List Char → List (List Char)
  | [] => [[]]
  | c :: rest =>
    if c = '\n' then [] :: splitNl rest
    else
      match splitNl rest with
      | [] => [[c]]
      | l :: ls => (c :: l) :: ls

/-- Python `'\n'.join`. -/
def joinNl : List (List Char) → List Char
  | [] => []
  | [l] => l
  | l :: ls => l ++ '\n' :: joinNl ls

/-- ASCII lower-casing, as used for the case-insensitive comparisons of
the cleaner and tagger patterns (all of which are ASCII). -/
def lowerAscii (l : List Char) : List Char := l.map Char.toLower

/-! ## Canonical data model (`models.py`) -/

/-- Role of the message sender (`MessageRole`, a `str` enum). -/
inductive MessageRole
  | user
  | assistant
  | system
deriving DecidableEq, Repr

/-- The string value of the role enum (pydantic `use_enum_values`). -/
def MessageRole.str : MessageRole → String
  | .user => "user"
  | .assistant => "assistant"
  | .system => "system"

/-- `msg.role.upper()` as used by the chunked exporter's rendering. -/
def MessageRole.upperStr : MessageRole → String
  | .user => "USER"
  | .assistant => "ASSISTANT"
  | .system => "SYSTEM"

/-- A calendar-time value carried by the pipeline.  The conversions
(`datetime.fromtimestamp`, `datetime.fromisoformat`) are an external
library boundary; the model keeps the raw source value, which no
checked property inspects further. -/
inductive TimeVal
  | epoch (seconds : Int)
  | iso (s : String)
deriving DecidableEq, Repr

/-- `datetime.isoformat()` at the model's granularity. -/
def TimeVal.isoformat : TimeVal → String
  | .epoch n => toString n
  | .iso s => s

/-- A single message in a conversation (`Message`).  `metadata` is an
optional string-keyed mapping; the loaders only ever store string
values in it. -/
structure Message where
  id : String
  role : MessageRole
  text : String
  timestamp : Option TimeVal
  metadata : Option (List (String × String))
deriving DecidableEq, Repr

/-- The canonical representation of a conversation (`UniversalChat`).
`source` is the string value of the `SourcePlatform` enum. -/
structure UniversalChat where
  id : String
  source : String
  source_file : String
  title : String
  created_at : Option TimeVal
  updated_at : Option TimeVal
  messages : List Message
  tags : List String
  token_count : Option Int
deriving DecidableEq, Repr

/-! ## A small model of Python `re` for the repository's fixed patterns

The patterns used by the repository (`PII_PATTERNS`, the tagger's word
pattern) are built from literals, character classes, alternation,
greedy repetition, word boundaries and negative lookahead.  `mtry` is a
backtracking matcher in continuation-passing style whose preference
order (leftmost alternative first, greedy repetition longest first)
matches Python's; `fuel` bounds the work and is instantiated generously
by the scanners.  None of the transcribed patterns has a repetition
over a nullable body, so fuel exhaustion never changes a result for
adequate fuel. -/

/-- One item of a character class: a literal or an inclusive range. -/
inductive ClsItem
  | lit (c : Char)
  | range (lo hi : Char)
deriving DecidableEq, Repr

/-- Whether a character is matched by a class item. -/
def ClsItem.holds (c : Char) : ClsItem → Bool
  | .lit d => c = d
  | .range lo hi => lo ≤ c && c ≤ hi

/-- Regular-expression syntax trees for the repository's patterns. -/
inductive RE
  | eps
  | ch (c : Char)
  | cls (neg : Bool) (items : List ClsItem)
  | alt (a b : RE)
  | seq (a b : RE)
  | star (r : RE)
  | wordB
  | nla (r : RE)
deriving Repr

/-- Whether a character is matched by a (possibly negated) class. -/
def clsHolds (neg : Bool) (items : List ClsItem) (c : Char) : Bool :=
  let m := items.any (ClsItem.holds c)
  if neg then !m else m

/-- Python's `\w` set in the ASCII range, for `\b` boundaries. -/
def isWordChar (c : Char) : Bool :=
  ('a' ≤ c && c ≤ 'z') || ('A' ≤ c && c ≤ 'Z') || ('0' ≤ c && c ≤ '9') || c = '_'

/-- Whether a `\b` boundary sits between `prev` and the head of `s`. -/
def isBoundary (prev : Option Char) (s : List Char) : Bool :=
  let left := match prev with | none => false | some c => isWordChar c
  let right := match s with | [] => false | c :: _ => isWordChar c
  left != right

/-- Backtracking matcher.  `prev` is the character before the current
position (for `\b`), `k` the continuation receiving the new `prev` and
the rest of the input; the first success in Python's preference order
wins. -/
def mtry : Nat → RE → Option Char → List Char → (Option Char → List Char → Option (List Char)) → Option (List Char)
  | 0, _, _, _, _ => none
  | _ + 1, .eps, prev, s, k => k prev s
  | _ + 1, .ch c, _, s, k =>
    match s with
    | [] => none
    | x :: rest => if x = c then k (some x) rest else none
  | _ + 1, .cls neg items, _, s, k =>
    match s with
    | [] => none
    | x :: rest => if clsHolds neg items x then k (some x) rest else none
  | fuel + 1, .alt a b, prev, s, k =>
    match mtry fuel a prev s k with
    | some res => some res
    | none => mtry fuel b prev s k
  | fuel + 1, .seq a b, prev, s, k =>
    mtry fuel a prev s (fun p s2 => mtry fuel b p s2 k)
  | fuel + 1, .star r, prev, s, k =>
    match mtry fuel r prev s (fun p s2 => mtry fuel (.star r) p s2 k) with
    | some res => some res
    | none => k prev s
  | _ + 1, .wordB, prev, s, k =>
    if isBoundary prev s then k prev s else none
  | fuel + 1, .nla r, prev, s, k =>
    match mtry fuel r prev s (fun _ s2 => some s2) with
    | some _ => none
    | none => k prev s

/-- Length of the preferred match of `r` at the current position, if
any (`re.match` at one position). -/
def matchLen (fuel : Nat) (r : RE) (prev : Option Char) (s : List Char) : Option Nat :=
  match mtry fuel r prev s (fun _ rest => some rest) with
  | some rest => some (s.length - rest.length)
  | none => none

/-- Fuel that is ample for the transcribed patterns on input `s`. -/
def reFuel (s : List Char) : Nat := 64 * (s.length + 2) * (s.length + 2)

/-- `re.sub(pattern, repl, ...)` scanning: replace each non-overlapping
leftmost match; a zero-width match substitutes and then advances one
character, as in Python.  The scanner advances at least one character
per step, so the `loopFuel` argument supplied by `subFrom` (input
length plus one) never runs out; the fuel-exhaustion branch returns
the remaining input. -/
def subFromAux : Nat → RE → List Char → Option Char → List Char → List Char
  | 0, _, _, _, s => s
  | _ + 1, r, repl, prev, [] =>
    match matchLen (reFuel []) r prev [] with
    | some _ => repl
    | none => []
  | loopFuel + 1, r, repl, prev, c :: rest =>
    match matchLen (reFuel (c :: rest)) r prev (c :: rest) with
    | none => c :: subFromAux loopFuel r repl (some c) rest
    | some 0 => repl ++ c :: subFromAux loopFuel r repl (some c) rest
    | some (n + 1) =>
      repl ++ subFromAux loopFuel r repl (some ((c :: rest).getD n c)) (rest.drop n)

/-- Top-level replacement scan, starting at position zero. -/
def subFrom (r : RE) (repl : List Char) (s : List Char) : List Char :=
  subFromAux (s.length + 1) r repl none s

/-- `re.findall` scanning (patterns without groups: whole matches). -/
def findFromAux : Nat → RE → Option Char → List Char → List (List Char)
  | 0, _, _, _ => []
  | _ + 1, r, prev, [] =>
    match matchLen (reFuel []) r prev [] with
    | some _ => [[]]
    | none => []
  | loopFuel + 1, r, prev, c :: rest =>
    match matchLen (reFuel (c :: rest)) r prev (c :: rest) with
    | none => findFromAux loopFuel r (some c) rest
    | some 0 => [] :: findFromAux loopFuel r (some c) rest
    | some (n + 1) =>
      ((c :: rest).take (n + 1)) :: findFromAux loopFuel r (some ((c :: rest).getD n c)) (rest.drop n)

/-- Top-level match-collecting scan, starting at position zero. -/
def findFrom (r : RE) (s : List Char) : List (List Char) :=
  findFromAux (s.length + 1) r none s

/-- `pattern.sub(repl, s)` on strings. -/
def reSub (r : RE) (repl : String) (s : String) : String :=
  ⟨subFrom r repl.data s.data⟩

/-- `pattern.findall(s)` on strings. -/
def reFindall (r : RE) (s : String) : List String :=
  (findFrom r s.data).map fun l => ⟨l⟩

/-! ### Pattern combinators used by the transcriptions -/

/-- A literal string as a regex. -/
def rstr (s : String) : RE := s.data.foldr (fun c acc => .seq (.ch c) acc) .eps

/-- `r+`. -/
def rplus (r : RE) : RE := .seq r (.star r)

/-- `r?`. -/
def ropt (r : RE) : RE := .alt r .eps

/-- `r{n}`. -/
def reps : RE → Nat → RE
  | _, 0 => .eps
  | r, n + 1 => .seq r (reps r n)

/-- `r{0,n}` (greedy). -/
def rupto : RE → Nat → RE
  | _, 0 => .eps
  | r, n + 1 => .alt (.seq r (rupto r n)) .eps

/-- `r{lo,hi}` (greedy). -/
def rbetween (r : RE) (lo hi : Nat) : RE := .seq (reps r lo) (rupto r (hi - lo))

/-- `r{n,}` (greedy). -/
def ratleast (r : RE) (n : Nat) : RE := .seq (reps r n) (.star r)

/-- Digits `0-9`. -/
def cDigit : ClsItem := .range '0' '9'

/-- Lower-case letters. -/
def cLower : ClsItem := .range 'a' 'z'

/-- Upper-case letters. -/
def cUpper : ClsItem := .range 'A' 'Z'

/-- Python `\s` (ASCII range), as class items. -/
def cSpace : List ClsItem :=
  [.lit ' ', .lit '\t', .lit '\n', .lit '\r', .lit '\x0b', .lit '\x0c']

/-! ## PII detection patterns (`privacy.py`, `PII_PATTERNS`)

Each pattern is transcribed literally from the source.  The `api_key`
pattern carries `re.IGNORECASE`; its letters are transcribed as
two-case classes.  Note the source's email pattern really contains the
class `[A-Z|a-z]`, bar included. -/

/-- `[-.\s]` of the phone pattern. -/
def cPhoneSep : List ClsItem := .lit '-' :: .lit '.' :: cSpace

/-- Email: `\b[A-Za-z0-9._%+-]+@[A-Za-z0-9.-]+\.[A-Z|a-z]{2,}\b`. -/
def emailRE : RE :=
  .seq .wordB <|
  .seq (rplus (.cls false [cUpper, cLower, cDigit, .lit '.', .lit '_', .lit '%', .lit '+', .lit '-'])) <|
  .seq (.ch '@') <|
  .seq (rplus (.cls false [cUpper, cLower, cDigit, .lit '.', .lit '-'])) <|
  .seq (.ch '.') <|
  .seq (ratleast (.cls false [cUpper, .lit '|', cLower]) 2) .wordB

/-- Phone, first alternative:
`\b(?:\+?1[-.\s]?)?\(?[0-9]{3}\)?[-.\s]?[0-9]{3}[-.\s]?[0-9]{4}\b`. -/
def phoneRE1 : RE :=
  .seq .wordB <|
  .seq (ropt (.seq (ropt (.ch '+')) (.seq (.ch '1') (ropt (.cls false cPhoneSep))))) <|
  .seq (ropt (.ch '(')) <|
  .seq (reps (.cls false [cDigit]) 3) <|
  .seq (ropt (.ch ')')) <|
  .seq (ropt (.cls false cPhoneSep)) <|
  .seq (reps (.cls false [cDigit]) 3) <|
  .seq (ropt (.cls false cPhoneSep)) <|
  .seq (reps (.cls false [cDigit]) 4) .wordB

/-- Phone, second alternative:
`\b\+?[0-9]{1,3}[-.\s]?\(?[0-9]{2,4}\)?[-.\s]?[0-9]{3,4}[-.\s]?[0-9]{3,4}\b`. -/
def phoneRE2 : RE :=
  .seq .wordB <|
  .seq (ropt (.ch '+')) <|
  .seq (rbetween (.cls false [cDigit]) 1 3) <|
  .seq (ropt (.cls false cPhoneSep)) <|
  .seq (ropt (.ch '(')) <|
  .seq (rbetween (.cls false [cDigit]) 2 4) <|
  .seq (ropt (.ch ')')) <|
  .seq (ropt (.cls false cPhoneSep)) <|
  .seq (rbetween (.cls false [cDigit]) 3 4) <|
  .seq (ropt (.cls false cPhoneSep)) <|
  .seq (rbetween (.cls false [cDigit]) 3 4) .wordB

/-- Phone: the alternation of the two source alternatives. -/
def phoneRE : RE := .alt phoneRE1 phoneRE2

/-- One octet of the IP pattern: `25[0-5]|2[0-4][0-9]|[01]?[0-9][0-9]?`. -/
def ipOctetRE : RE :=
  .alt (.seq (.ch '2') (.seq (.ch '5') (.cls false [.range '0' '5']))) <|
  .alt (.seq (.ch '2') (.seq (.cls false [.range '0' '4']) (.cls false [cDigit]))) <|
  .seq (ropt (.cls false [.range '0' '1'])) (.seq (.cls false [cDigit]) (ropt (.cls false [cDigit])))

/-- IP address:
`\b(?:(?:25[0-5]|2[0-4][0-9]|[01]?[0-9][0-9]?)\.){3}(?:25[0-5]|2[0-4][0-9]|[01]?[0-9][0-9]?)\b`. -/
def ipAddressRE : RE :=
  .seq .wordB <|
  .seq (reps (.seq ipOctetRE (.ch '.')) 3) <|
  .seq ipOctetRE .wordB

/-- Credit card:
`\b(?:4[0-9]{12}(?:[0-9]{3})?|5[1-5][0-9]{14}|3[47][0-9]{13}|6(?:011|5[0-9]{2})[0-9]{12})\b`. -/
def creditCardRE : RE :=
  .seq .wordB <|
  .seq
    (.alt (.seq (.ch '4') (.seq (reps (.cls false [cDigit]) 12) (ropt (reps (.cls false [cDigit]) 3)))) <|
     .alt (.seq (.ch '5') (.seq (.cls false [.range '1' '5']) (reps (.cls false [cDigit]) 14))) <|
     .alt (.seq (.ch '3') (.seq (.cls false [.lit '4', .lit '7']) (reps (.cls false [cDigit]) 13))) <|
     .seq (.ch '6') (.seq (.alt (rstr "011") (.seq (.ch '5') (reps (.cls false [cDigit]) 2))) (reps (.cls false [cDigit]) 12)))
    .wordB

/-- SSN:
`\b(?!000|666|9\d{2})\d{3}[-\s]?(?!00)\d{2}[-\s]?(?!0000)\d{4}\b`. -/
def ssnRE : RE :=
  .seq .wordB <|
  .seq (.nla (.alt (rstr "000") (.alt (rstr "666") (.seq (.ch '9') (reps (.cls false [cDigit]) 2))))) <|
  .seq (reps (.cls false [cDigit]) 3) <|
  .seq (ropt (.cls false (.lit '-' :: cSpace))) <|
  .seq (.nla (rstr "00")) <|
  .seq (reps (.cls false [cDigit]) 2) <|
  .seq (ropt (.cls false (.lit '-' :: cSpace))) <|
  .seq (.nla (rstr "0000")) <|
  .seq (reps (.cls false [cDigit]) 4) .wordB

/-- A single letter in both cases, for the `re.IGNORECASE` pattern. -/
def ciCh (c : Char) : RE := .cls false [.lit c.toLower, .lit c.toUpper]

/-- A case-insensitive literal. -/
def ciStr (s : String) : RE := s.data.foldr (fun c acc => .seq (ciCh c) acc) .eps

/-- API key (with `re.IGNORECASE`):
`\b(?:sk-|pk_|api[_-]?key[=:\s]*)[A-Za-z0-9_-]{20,}\b`. -/
def apiKeyRE : RE :=
  .seq .wordB <|
  .seq
    (.alt (.seq (ciStr "sk") (.ch '-')) <|
     .alt (.seq (ciStr "pk") (.ch '_')) <|
     .seq (ciStr "api") (.seq (ropt (.cls false [.lit '_', .lit '-'])) (.seq (ciStr "key") (.star (.cls false (.lit '=' :: .lit ':' :: cSpace))))))
    (.seq (ratleast (.cls false [cUpper, cLower, cDigit, .lit '_', .lit '-']) 20) .wordB)

/-- JWT: `\beyJ[A-Za-z0-9_-]*\.eyJ[A-Za-z0-9_-]*\.[A-Za-z0-9_-]*\b`. -/
def jwtRE : RE :=
  .seq .wordB <|
  .seq (rstr "eyJ") <|
  .seq (.star (.cls false [cUpper, cLower, cDigit, .lit '_', .lit '-'])) <|
  .seq (.ch '.') <|
  .seq (rstr "eyJ") <|
  .seq (.star (.cls false [cUpper, cLower, cDigit, .lit '_', .lit '-'])) <|
  .seq (.ch '.') <|
  .seq (.star (.cls false [cUpper, cLower, cDigit, .lit '_', .lit '-'])) .wordB

/-- `PII_PATTERNS`: the fixed association of category names to
patterns, in the source's insertion order. -/
def PII_PATTERNS : List (String × RE) :=
  [("email", emailRE),
   ("phone", phoneRE),
   ("ip_address", ipAddressRE),
   ("credit_card", creditCardRE),
   ("ssn", ssnRE),
   ("api_key", apiKeyRE),
   ("jwt", jwtRE)]

/-- The category names, `PII_PATTERNS.keys()`. -/
def piiKeys : List String := PII_PATTERNS.map Prod.fst

/-! ## Privacy processor (`privacy.py`) -/

/-- `DEFAULT_REPLACEMENT = "[REDACTED_{type}]"` (braces written as the
placeholder they are). -/
def DEFAULT_REPLACEMENT : String := "[REDACTED_\x7btype\x7d]"

/-- ASCII `str.upper`, applied to category names. -/
def upperAscii (s : String) : String := ⟨s.data.map Char.toUpper⟩

/-- `template.format(type=name)`: replace each occurrence of the
placeholder token by `name`. -/
def formatTypeAux (name : List Char) : List Char → List Char
  | '\x7b' :: 't' :: 'y' :: 'p' :: 'e' :: '\x7d' :: rest => name ++ formatTypeAux name rest
  | c :: rest => c :: formatTypeAux name rest
  | [] => []

/-- `replacement_format.format(type=pii_type.upper())`. -/
def formatType (template : String) (name : String) : String :=
  ⟨formatTypeAux name.data template.data⟩

/-- `PrivacyService` state: the validated construction arguments. -/
structure PrivacyService where
  redact_types : List String
  replacement_format : String
deriving DecidableEq, Repr

/-- `PrivacyService.__init__`.  `redact_types or set(PII_PATTERNS.keys())`
treats both an absent and an empty collection as "all categories";
an unknown category raises `ValueError` at construction time. -/
def PrivacyService.make (redact_types : Option (List String)) (replacement_format : String) :
    Except String PrivacyService :=
  let rt := match redact_types with
    | none => piiKeys
    | some [] => piiKeys
    | some l => l
  let invalid := rt.filter fun t => !(piiKeys.contains t)
  if invalid.isEmpty then .ok ⟨rt, replacement_format⟩
  else .error "Unknown PII types"

/-- `PrivacyService._redact_text`. -/
def PrivacyService.redactText (svc : PrivacyService) (text : String) : String :=
  if text = "" then ""
  else
    svc.redact_types.foldl
      (fun result pii_type =>
        match PII_PATTERNS.lookup pii_type with
        | some pattern => reSub pattern (formatType svc.replacement_format (upperAscii pii_type)) result
        | none => result)
      text

/-- `PrivacyService.process`: redact every message's text and the
title; no message is ever dropped. -/
def PrivacyService.process (svc : PrivacyService) (chat : UniversalChat) : UniversalChat :=
  let redacted := chat.messages.map fun msg =>
    ⟨msg.id, msg.role, svc.redactText msg.text, msg.timestamp, msg.metadata⟩
  ⟨chat.id, chat.source, chat.source_file, svc.redactText chat.title,
   chat.created_at, chat.updated_at, redacted, chat.tags, chat.token_count⟩

/-- `PrivacyService.detect`: scan without mutating; a category appears
in the result only when it is configured and has at least one match. -/
def PrivacyService.detect (svc : PrivacyService) (text : String) : List (String × List String) :=
  svc.redact_types.filterMap fun pii_type =>
    match PII_PATTERNS.lookup pii_type with
    | some pattern =>
      let found := reFindall pattern text
      if found.isEmpty then none else some (pii_type, found)
    | none => none

/-! ## Cleaner processor (`cleaner.py`) -/

/-- Drop an expected literal (already lower-cased) from the front of a
lower-cased line; `none` when the line does not start with it. -/
def dropLit : List Char → List Char → Option (List Char)
  | [], l => some l
  | _ :: _, [] => none
  | c :: cs, x :: xs => if x = c then dropLit cs xs else none

/-- `,?\s*` between two literal pieces of a boilerplate pattern. -/
def dropCommaWs (l : List Char) : List Char :=
  let r := match l with
    | ',' :: t => t
    | t => t
  r.dropWhile pyWs

/-- `BOILERPLATE_PATTERNS` matching: `p.match(line)` for the seven
fixed disclaimer patterns, compiled with `IGNORECASE`; each pattern is
a literal head (possibly with a `,?\s*` joint) followed by `.*$`,
which always matches on a newline-free line. -/
def isBoilerplate (line : List Char) : Bool :=
  let l := lowerAscii line
  (dropLit "i am a large language model".data l).isSome ||
  (dropLit "i'm an ai language model".data l).isSome ||
  (match dropLit "as an ai".data l with
   | some r => (dropLit "i".data (dropCommaWs r)).isSome
   | none => false) ||
  (dropLit "i don't have the ability to".data l).isSome ||
  (match dropLit "i'm sorry".data l with
   | some r => (dropLit "but as an ai".data (dropCommaWs r)).isSome
   | none => false) ||
  (dropLit "i'm unable to".data l).isSome ||
  (match dropLit "as a language model".data l with
   | some r => (dropLit "i".data (dropCommaWs r)).isSome
   | none => false)

/-- Drop characters up to and including the first `'>'`. -/
def afterGt : List Char → List Char
  | [] => []
  | c :: rest => if c = '>' then rest else afterGt rest

/-- `HTML_TAG_PATTERN.sub('', text)` for the pattern `<[^>]+>`,
specialised to a direct scan: at a `'<'`, the pattern matches exactly
when the next character is not `'>'` and some later `'>'` exists, and
the match then extends through the first `'>'`; every other character
is kept.  `loopFuel` (input length suffices) keeps the recursion
structural; the exhaustion branch returns the input. -/
def stripTagsAux : Nat → List Char → List Char
  | 0, l => l
  | _ + 1, [] => []
  | loopFuel + 1, c :: rest =>
    if c = '<' then
      match rest with
      | [] => ['<']
      | d :: _ =>
        if d = '>' || !(rest.contains '>') then '<' :: stripTagsAux loopFuel rest
        else stripTagsAux loopFuel (afterGt rest)
    else c :: stripTagsAux loopFuel rest

/-- The HTML-tag removal pass. -/
def stripTags (l : List Char) : List Char := stripTagsAux l.length l

/-- Collapse maximal runs of `target`, rendering each run with `emit`
(`pending` counts the newlines already seen). -/
def runCollapse (target : Char) (emit : Nat → List Char) : Nat → List Char → List Char
  | pending, [] => emit pending
  | pending, c :: rest =>
    if c = target then runCollapse target emit (pending + 1) rest
    else emit pending ++ c :: runCollapse target emit 0 rest

/-- `WHITESPACE_PATTERNS`, applied in source order: `\n{3,}` to two
newlines, `' '{2,}'` to one space, `\t+` to one space. -/
def normalizeWs (l : List Char) : List Char :=
  let r1 := runCollapse '\n' (fun n => if 3 ≤ n then ['\n', '\n'] else List.replicate n '\n') 0 l
  let r2 := runCollapse ' ' (fun n => if 2 ≤ n then [' '] else List.replicate n ' ') 0 r1
  runCollapse '\t' (fun n => if 1 ≤ n then [' '] else []) 0 r2

/-- `CleanerService` configuration flags. -/
structure CleanerService where
  remove_boilerplate : Bool
  remove_html : Bool
  remove_system_messages : Bool
  normalize_whitespace : Bool
deriving DecidableEq, Repr

/-- The boilerplate pass: drop whole lines whose stripped text matches
a disclaimer pattern. -/
def boilerplateFilter (l : List Char) : List Char :=
  joinNl ((splitNl l).filter fun line => !isBoilerplate (pytrim line))

/-- `CleanerService._clean_text` on character lists. -/
def cleanChars (svc : CleanerService) (l : List Char) : List Char :=
  if l = [] then []
  else
    let r1 := if svc.remove_html then stripTags l else l
    let r2 := if svc.normalize_whitespace then normalizeWs r1 else r1
    let r3 := if svc.remove_boilerplate then boilerplateFilter r2 else r2
    pytrim r3

/-- `CleanerService._clean_text`. -/
def CleanerService.cleanText (svc : CleanerService) (text : String) : String :=
  ⟨cleanChars svc text.data⟩

/-- One iteration of the `CleanerService.process` loop: drop a system
message when configured, clean the text, drop the message if the
cleaned text is blank. -/
def CleanerService.cleanMessage (svc : CleanerService) (msg : Message) : Option Message :=
  if svc.remove_system_messages = true ∧ msg.role = .system then none
  else
    let t := svc.cleanText msg.text
    if t = "" ∨ pystrip t = "" then none
    else some ⟨msg.id, msg.role, t, msg.timestamp, msg.metadata⟩

/-- `CleanerService.process`: drop system messages when configured,
clean each text, and drop messages whose cleaned text is blank. -/
def CleanerService.process (svc : CleanerService) (chat : UniversalChat) : UniversalChat :=
  ⟨chat.id, chat.source, chat.source_file, chat.title, chat.created_at,
   chat.updated_at, chat.messages.filterMap svc.cleanMessage, chat.tags, chat.token_count⟩

/-! ## Tagger processor (`tagger.py`)

The optional RAKE ranker is an external dependency (`rake_nltk`) that
is not part of the repository; the embedding models the shipped state
in which the import fails (`HAS_RAKE = False`, `self._rake = None`),
so `process` always takes the frequency-based fallback path.  Either
path leaves `messages` untouched and replaces `tags` wholesale. -/

/-- The tagger's word pattern `\b[a-zA-Z]{3,}\b`. -/
def tagWordRE : RE :=
  .seq .wordB (.seq (ratleast (.cls false [cLower, cUpper]) 3) .wordB)

/-- The fallback extractor's fixed `stop_words` set. -/
def TAGGER_STOP_WORDS : List String :=
  ["the", "and", "for", "are", "but", "not", "you", "all",
   "can", "had", "her", "was", "one", "our", "out", "has",
   "have", "been", "were", "being", "their", "there", "this",
   "that", "with", "would", "could", "should", "what", "from",
   "they", "will", "when", "where", "which", "while", "into",
   "some", "then", "than", "them", "these", "your", "just",
   "like", "make", "know", "think", "take", "want", "does",
   "about", "also", "more", "other", "only", "very", "here"]

/-- Add one word to an insertion-ordered counter (`collections.Counter`
over a `dict` preserves first-seen key order). -/
def counterAdd : List (String × Nat) → String → List (String × Nat)
  | [], w => [(w, 1)]
  | (x, n) :: rest, w =>
    if x = w then (x, n + 1) :: rest else (x, n) :: counterAdd rest w

/-- `Counter(words)` as an insertion-ordered association list. -/
def counter (ws : List String) : List (String × Nat) := ws.foldl counterAdd []

/-- `Counter.most_common(n)`: stable descending sort by count (ties in
first-seen order), truncated to `n`. -/
def mostCommon (n : Nat) (counts : List (String × Nat)) : List (String × Nat) :=
  (counts.mergeSort fun a b => b.2 ≤ a.2).take n

/-- `TaggerService` configuration. -/
structure TaggerService where
  max_tags : Nat
  min_keyword_length : Nat
  use_title : Bool
  use_user_messages : Bool
  use_assistant_messages : Bool
deriving DecidableEq, Repr

/-- `TaggerService._extract_simple`, the frequency fallback. -/
def TaggerService.extractSimple (svc : TaggerService) (text : String) : List String :=
  if text = "" then []
  else
    let words := reFindall tagWordRE ⟨lowerAscii text.data⟩
    let filtered := words.filter fun w => !(TAGGER_STOP_WORDS.contains w)
    (mostCommon svc.max_tags (counter filtered)).map Prod.fst

/-- `TaggerService.process`: build the corpus from the title and the
selected roles' messages, extract tags, and replace `tags`; the
message list is returned unchanged. -/
def TaggerService.process (svc : TaggerService) (chat : UniversalChat) : UniversalChat :=
  let titleParts := if svc.use_title = true ∧ chat.title ≠ "" then [chat.title] else []
  let msgParts := chat.messages.filterMap fun msg =>
    if msg.role = .user ∧ svc.use_user_messages = true then some msg.text
    else if msg.role = .assistant ∧ svc.use_assistant_messages = true then some msg.text
    else none
  let full_text := String.intercalate " " (titleParts ++ msgParts)
  ⟨chat.id, chat.source, chat.source_file, chat.title, chat.created_at,
   chat.updated_at, chat.messages, svc.extractSimple full_text, chat.token_count⟩

/-! ## Chunked exporter (`aspendos_exporter.py`) -/

/-- `CHARS_PER_TOKEN = 4`. -/
def CHARS_PER_TOKEN : Nat := 4

/-- One chunk record of the chunked export format. -/
structure Chunk where
  chunk_id : String
  conversation_id : String
  text : String
  message_ids : List String
  tags : List String
  token_estimate : Nat
deriving DecidableEq, Repr

/-- `AspendosExporter` configuration. -/
structure AspendosExporter where
  chunk_size : Nat
  include_metadata : Bool
deriving DecidableEq, Repr

/-- `self.max_chars = chunk_size * CHARS_PER_TOKEN`. -/
def AspendosExporter.max_chars (e : AspendosExporter) : Nat :=
  e.chunk_size * CHARS_PER_TOKEN

/-- The rendering of one message inside a chunk:
`f"[{msg.role.upper()}]: {msg.text}"`. -/
def renderMsg (m : Message) : String :=
  "[" ++ m.role.upperStr ++ "]: " ++ m.text

/-- Python `'\n\n'.join`, the chunk-text assembly. -/
def joinNN : List String → String
  | [] => ""
  | [t] => t
  | t :: ts => t ++ "\n\n" ++ joinNN ts

/-- `AspendosExporter._build_chunk`. -/
def buildChunk (chunk_id : Nat) (conversation_id : String) (text : String)
    (message_ids : List String) (tags : List String) : Chunk :=
  ⟨"chunk_" ++ toString chunk_id, conversation_id, text, message_ids, tags,
   text.length / CHARS_PER_TOKEN⟩

/-- The greedy packing loop of `AspendosExporter._create_chunks`, over
the rendered messages.  Each item is the pair of a message's rendered
line `msg_text` and its id (the loop body only ever uses the rendered
line's text and length, and the id for `message_ids`).  State mirrors
the source: sealed `chunks`, the current chunk's lines `curText` and
ids `curIds`, and the running length `curLen`. -/
def createChunksLoop (maxChars startId : Nat) (chatId : String) (tags : List String) :
    List Chunk → List String → List String → Nat → List (String × String) → List Chunk
  | chunks, curText, curIds, _, [] =>
    if curText.isEmpty then chunks
    else
      chunks ++ [buildChunk (startId + chunks.length) chatId
        (joinNN curText) curIds tags]
  | chunks, curText, curIds, curLen, (msg_text, msgId) :: rest =>
    let msg_length := msg_text.length
    if maxChars < curLen + msg_length ∧ ¬curText.isEmpty then
      let chunks2 := chunks ++ [buildChunk (startId + chunks.length) chatId
        (joinNN curText) curIds tags]
      createChunksLoop maxChars startId chatId tags chunks2 [msg_text] [msgId] msg_length rest
    else
      createChunksLoop maxChars startId chatId tags chunks (curText ++ [msg_text])
        (curIds ++ [msgId]) (curLen + msg_length) rest

/-- `AspendosExporter._create_chunks`. -/
def AspendosExporter.createChunks (e : AspendosExporter) (chat : UniversalChat) (start_id : Nat) :
    List Chunk :=
  createChunksLoop e.max_chars start_id chat.id chat.tags [] [] [] 0
    (chat.messages.map fun m => (renderMsg m, m.id))

/-- `AspendosExporter._estimate_tokens`. -/
def AspendosExporter.estimateTokens (chat : UniversalChat) : Nat :=
  (chat.messages.foldl (fun acc m => acc + m.text.length) 0) / CHARS_PER_TOKEN

/-! ## Tree-reconstructing loader (`chatgpt_loader.py`)

The decoded JSON of one conversation record is modelled structurally:
a record holds an id-keyed node mapping (an insertion-ordered
association list, like a Python `dict`), and each node an optional raw
message payload. -/

/-- One entry of `content.parts`: a raw string, a dict (with its
`text` value when that is a string), or any other shape. -/
inductive GptPart
  | str (s : String)
  | dict (text : Option String)
  | other
deriving DecidableEq, Repr

/-- The raw message payload of a node, with the fields
`_parse_message` reads.  `hidden` is the truthiness of
`metadata.get('is_visually_hidden_from_conversation')`; `create_time`
keeps Python's falsiness for `0`. -/
structure GptMsgData where
  id : String
  author_role : String
  content_type : String
  parts : List GptPart
  hidden : Bool
  create_time : Option Int
  model_slug : Option String
deriving DecidableEq, Repr

/-- One node of the `mapping`. -/
structure GptNode where
  parent : Option String
  children : List String
  message : Option GptMsgData
deriving DecidableEq, Repr

/-- `ChatGPTLoader._parse_message`: reject unknown roles and non-text
content types, assemble the text from the parts joined by newline and
stripped, drop blank or hidden results. -/
def parseGptMessage (d : GptMsgData) : Option Message :=
  let role? : Option MessageRole :=
    if d.author_role = "user" then some .user
    else if d.author_role = "assistant" then some .assistant
    else if d.author_role = "system" then some .system
    else none
  match role? with
  | none => none
  | some role =>
    if d.content_type ≠ "text" ∧ d.content_type ≠ "user_editable_context" then none
    else
      let text_parts := d.parts.filterMap fun p =>
        match p with
        | .str s => some s
        | .dict (some t) => if t = "" then none else some t
        | .dict none => none
        | .other => none
      let text := pystrip (String.intercalate "\n" text_parts)
      if text = "" then none
      else if d.hidden then none
      else
        let timestamp := match d.create_time with
          | some t => if t = 0 then none else some (TimeVal.epoch t)
          | none => none
        let metadata := match d.model_slug with
          | some s => if s = "" then none else some [("model", s)]
          | none => none
        some ⟨d.id, role, text, timestamp, metadata⟩

/-- `ChatGPTLoader._find_root`: the first node (in mapping order)
whose `parent` is `None`. -/
def findRoot (mapping : List (String × GptNode)) : Option String :=
  (mapping.find? fun kv => kv.2.parent.isNone).map Prod.fst

/-- `ChatGPTLoader._traverse_tree`: emit the current node's parsed
message, then descend into the first child only.  The Python original
recurses without bound; `fuel` (instantiated with the mapping size,
which bounds the first-child chain of any tree) keeps the model
total. -/
def traverseTree (fuel : Nat) (mapping : List (String × GptNode)) (node_id : String) : List Message :=
  match fuel with
  | 0 => []
  | fuel + 1 =>
    match mapping.lookup node_id with
    | none => []
    | some node =>
      let msgs := match node.message with
        | some md =>
          match parseGptMessage md with
          | some m => [m]
          | none => []
        | none => []
      match node.children with
      | [] => msgs
      | c :: _ => msgs ++ traverseTree fuel mapping c

/-- One conversation record of the ChatGPT export. -/
structure GptConv where
  id : Option String
  conversation_id : Option String
  title : Option String
  create_time : Option Int
  update_time : Option Int
  mapping : List (String × GptNode)
deriving Repr

/-- `ChatGPTLoader._parse_conversation`: no root means no chat;
otherwise traverse from the root and assemble the canonical record. -/
def parseGptConversation (conv : GptConv) (source_file : String) : Option UniversalChat :=
  match findRoot conv.mapping with
  | none => none
  | some root_id =>
    let messages := traverseTree conv.mapping.length conv.mapping root_id
    let created_at := conv.create_time.bind fun t =>
      if t = 0 then none else some (TimeVal.epoch t)
    let updated_at := conv.update_time.bind fun t =>
      if t = 0 then none else some (TimeVal.epoch t)
    let title := match conv.title with
      | some t => if t = "" then "Untitled Conversation" else t
      | none => "Untitled Conversation"
    some ⟨conv.id.getD (conv.conversation_id.getD ""), "chatgpt", source_file,
          title, created_at, updated_at, messages, [], none⟩

/-- One record of `ChatGPTLoader.load`: parse, then skip chats with no
messages. -/
def loadGptRecord (conv : GptConv) (source_file : String) : Option UniversalChat :=
  match parseGptConversation conv source_file with
  | none => none
  | some chat => if chat.messages.isEmpty then none else some chat

/-! ## Flat-list loader (`claude_loader.py`) -/

/-- One dict of a message's `content` array (non-dict entries are
skipped by the source's `isinstance` check before this model sees
them). -/
structure ClaudeContentItem where
  type : String
  text : Option String
deriving DecidableEq, Repr

/-- One record of `chat_messages`, with the fields
`_parse_messages` reads (each already defaulted as by `.get`). -/
structure ClaudeMsgRec where
  uuid : String
  text : String
  sender : String
  created_at : Option String
  content : List ClaudeContentItem
deriving DecidableEq, Repr

/-- Text extraction: the direct `text` field, else the first content
item of type `text`. -/
def claudeEffectiveText (msg : ClaudeMsgRec) : String :=
  if msg.text ≠ "" then msg.text
  else
    match msg.content.find? fun ci => ci.type = "text" with
    | some ci => ci.text.getD ""
    | none => ""

/-- The sender-to-role table: `human` and `assistant` map to their
roles, anything else defaults to `system`. -/
def claudeRoleOf (sender : String) : MessageRole :=
  if sender = "human" then .user
  else if sender = "assistant" then .assistant
  else .system

/-- One iteration of `ClaudeLoader._parse_messages`: skip blank texts,
default unknown senders to `system`, store the stripped text. -/
def parseClaudeMessage (msg : ClaudeMsgRec) : Option Message :=
  let text := claudeEffectiveText msg
  if text = "" ∨ pystrip text = "" then none
  else
    let timestamp := match msg.created_at with
      | some s => if s = "" then none else some (TimeVal.iso (s.replace "Z" "+00:00"))
      | none => none
    some ⟨msg.uuid, claudeRoleOf msg.sender, pystrip text, timestamp, some []⟩

/-- `ClaudeLoader._parse_messages`. -/
def parseClaudeMessages (chat_messages : List ClaudeMsgRec) : List Message :=
  chat_messages.filterMap parseClaudeMessage

/-! ## JSON values, the canonical JSON exporter, and re-loading

`JVal` models a decoded JSON document (`json.load`).  The canonical
JSON exporter's `_chat_to_dict` serializes into it, and the two
loaders' record parsers are given a `JVal` front end so that feeding
the exporter's output back through a loader can be stated.  In the
source, any exception inside a record's parse is caught and the record
skipped; the `JVal` decoders below return `none` on the corresponding
shape faults. -/

/-- A decoded JSON value; objects are insertion-ordered key/value
lists, as Python dicts are. -/
inductive JVal
  | null
  | str (s : String)
  | num (n : Int)
  | bool (b : Bool)
  | arr (elems : List JVal)
  | obj (fields : List (String × JVal))
deriving Repr

/-- Python truthiness of a JSON value. -/
def jTruthy : JVal → Bool
  | .null => false
  | .str s => s ≠ ""
  | .num n => n ≠ 0
  | .bool b => b
  | .arr l => !l.isEmpty
  | .obj l => !l.isEmpty

/-- `dict.get(key)` on an object; `none` for absent keys or non-objects. -/
def jGet : JVal → String → Option JVal
  | .obj fields, k => fields.lookup k
  | _, _ => none

/-- A string-valued lookup with a default for an absent key
(`d.get(k, dflt)`); a present non-string value is a shape fault. -/
def jStrD (v : JVal) (k : String) (dflt : String) : Option String :=
  match jGet v k with
  | none => some dflt
  | some (.str s) => some s
  | some _ => none

/-- `JSONExporter`'s serialization of an optional calendar time. -/
def jOfTime : Option TimeVal → JVal
  | some t => .str t.isoformat
  | none => .null

/-- The per-message part of `JSONExporter._chat_to_dict`. -/
def messageToDict (m : Message) : JVal :=
  .obj [("id", .str m.id),
        ("role", .str m.role.str),
        ("text", .str m.text),
        ("timestamp", jOfTime m.timestamp),
        ("metadata",
          match m.metadata with
          | none => .null
          | some kvs => .obj (kvs.map fun kv => (kv.1, .str kv.2)))]

/-- `JSONExporter._chat_to_dict`. -/
def chatToDict (chat : UniversalChat) : JVal :=
  .obj [("id", .str chat.id),
        ("source", .str chat.source),
        ("source_file", .str chat.source_file),
        ("title", .str chat.title),
        ("created_at", jOfTime chat.created_at),
        ("updated_at", jOfTime chat.updated_at),
        ("messages", .arr (chat.messages.map messageToDict)),
        ("tags", .arr (chat.tags.map JVal.str)),
        ("token_count",
          match chat.token_count with
          | some n => .num n
          | none => .null)]

/-- `JSONExporter._export_single_file`'s document: the ordered array
of all chats. -/
def jsonExportDoc (chats : List UniversalChat) : JVal :=
  .arr (chats.map chatToDict)

/-- Decode one `content` entry for the flat-list loader; non-dict
entries are skipped by the caller. -/
def claudeContentOfJ : JVal → Option ClaudeContentItem
  | .obj kvs =>
    some ⟨(match kvs.lookup "type" with | some (.str s) => s | _ => ""),
          (match kvs.lookup "text" with | some (.str s) => some s | _ => none)⟩
  | _ => none

/-- Decode one `chat_messages` record; a non-dict record is a shape
fault for the whole conversation record. -/
def claudeMsgOfJ : JVal → Option ClaudeMsgRec
  | .obj kvs =>
    some ⟨(match kvs.lookup "uuid" with | some (.str s) => s | _ => ""),
          (match kvs.lookup "text" with | some (.str s) => s | _ => ""),
          (match kvs.lookup "sender" with | some (.str s) => s | _ => ""),
          (match kvs.lookup "created_at" with | some (.str s) => some s | _ => none),
          (match kvs.lookup "content" with
           | some (.arr l) => l.filterMap claudeContentOfJ
           | _ => [])⟩
  | _ => none

/-- `ClaudeLoader` on one decoded conversation record, including the
`load` loop's skip of chats with no messages. -/
def claudeLoadRecordJ (conv : JVal) (source_file : String) : Option UniversalChat :=
  match conv with
  | .obj kvs =>
    let cm : Option (List JVal) := match kvs.lookup "chat_messages" with
      | some (.arr l) => some l
      | none => some []
      | some _ => none
    match cm with
    | none => none
    | some l =>
      match l.mapM claudeMsgOfJ with
      | none => none
      | some recs =>
        let messages := parseClaudeMessages recs
        let uuid := match kvs.lookup "uuid" with | some (.str s) => s | _ => ""
        let title := match kvs.lookup "name" with
          | some (.str s) => if s = "" then "Untitled Conversation" else s
          | _ => "Untitled Conversation"
        let created_at := match kvs.lookup "created_at" with
          | some (.str s) =>
            if s = "" then none else some (TimeVal.iso (s.replace "Z" "+00:00"))
          | _ => none
        let updated_at := match kvs.lookup "updated_at" with
          | some (.str s) =>
            if s = "" then none else some (TimeVal.iso (s.replace "Z" "+00:00"))
          | _ => none
        if messages.isEmpty then none
        else some ⟨uuid, "claude", source_file, title, created_at, updated_at,
                   messages, [], none⟩
  | _ => none

/-- Decode one entry of `content.parts`. -/
def gptPartOfJ : JVal → GptPart
  | .str s => .str s
  | .obj kvs =>
    .dict (match kvs.lookup "text" with | some (.str t) => some t | _ => none)
  | _ => .other

/-- Decode a node's raw message payload. -/
def gptMsgDataOfJ : JVal → Option GptMsgData
  | .obj kvs =>
    let author_role := match kvs.lookup "author" with
      | some (.obj a) => match a.lookup "role" with | some (.str r) => some r | none => some "" | some _ => none
      | none => some ""
      | some _ => none
    let contentKvs : Option (List (String × JVal)) := match kvs.lookup "content" with
      | some (.obj c) => some c
      | none => some []
      | some _ => none
    match author_role, contentKvs with
    | some role, some c =>
      let content_type := match c.lookup "content_type" with | some (.str s) => s | _ => ""
      let partsJ : Option (List JVal) := match c.lookup "parts" with
        | some (.arr l) => some l
        | none => some []
        | some _ => none
      match partsJ with
      | none => none
      | some parts =>
        let metaKvs : List (String × JVal) := match kvs.lookup "metadata" with
          | some (.obj m) => m
          | _ => []
        some ⟨(match kvs.lookup "id" with | some (.str s) => s | _ => ""),
              role, content_type, parts.map gptPartOfJ,
              (match metaKvs.lookup "is_visually_hidden_from_conversation" with
               | some v => jTruthy v
               | none => false),
              (match kvs.lookup "create_time" with | some (.num n) => some n | _ => none),
              (match metaKvs.lookup "model_slug" with | some (.str s) => some s | _ => none)⟩
    | _, _ => none
  | _ => none

/-- Decode one node of the `mapping`; `parent` is kept only up to the
`is None` test the source performs on it. -/
def gptNodeOfJ : JVal → Option GptNode
  | .obj kvs =>
    let parent : Option String := match kvs.lookup "parent" with
      | none => none
      | some .null => none
      | some (.str s) => some s
      | some _ => some ""
    let children : Option (List String) := match kvs.lookup "children" with
      | some (.arr l) => l.mapM fun v => match v with | .str s => some s | _ => none
      | none => some []
      | some _ => none
    match children with
    | none => none
    | some cs =>
      match kvs.lookup "message" with
      | none => some ⟨parent, cs, none⟩
      | some .null => some ⟨parent, cs, none⟩
      | some m =>
        match gptMsgDataOfJ m with
        | some md => some ⟨parent, cs, some md⟩
        | none => none
  | _ => none

/-- `ChatGPTLoader` on one decoded conversation record, including the
`load` loop's skip of chats with no messages. -/
def gptLoadRecordJ (conv : JVal) (source_file : String) : Option UniversalChat :=
  match conv with
  | .obj kvs =>
    let mappingJ : Option (List (String × JVal)) := match kvs.lookup "mapping" with
      | some (.obj m) => some m
      | none => some []
      | some _ => none
    match mappingJ with
    | none => none
    | some mkvs =>
      match mkvs.mapM (fun kv => (gptNodeOfJ kv.2).map fun n => (kv.1, n)) with
      | none => none
      | some mapping =>
        let conv' : GptConv :=
          ⟨(match kvs.lookup "id" with | some (.str s) => some s | _ => none),
           (match kvs.lookup "conversation_id" with | some (.str s) => some s | _ => none),
           (match kvs.lookup "title" with | some (.str s) => some s | _ => none),
           (match kvs.lookup "create_time" with | some (.num n) => some n | _ => none),
           (match kvs.lookup "update_time" with | some (.num n) => some n | _ => none),
           mapping⟩
        loadGptRecord conv' source_file
  | _ => none

/-- `ClaudeLoader.load` over a whole decoded document. -/
def claudeLoadDoc (doc : JVal) (source_file : String) : List UniversalChat :=
  match doc with
  | .arr l => l.filterMap (claudeLoadRecordJ · source_file)
  | _ => []

/-- `ChatGPTLoader.load` over a whole decoded document. -/
def gptLoadDoc (doc : JVal) (source_file : String) : List UniversalChat :=
  match doc with
  | .arr l => l.filterMap (gptLoadRecordJ · source_file)
  | _ => []

/-! ## Spec-side formulation for the traversal claim -/

/-- Modelled from the spec: the *primary thread* — the nodes reached
from a starting node by repeatedly following only the first entry of
`children`, cut off by the same fuel as the traversal.  This is the
spec's description of the path whose messages the tree-reconstructing
loader emits; the traversal theorem compares `traverseTree` against
it. -/
def primaryThread (fuel : Nat) (mapping : List (String × GptNode)) (node_id : String) : List GptNode :=
  match fuel with
  | 0 => []
  | fuel + 1 =>
    match mapping.lookup node_id with
    | none => []
    | some node =>
      node :: (match node.children with
               | [] => []
               | c :: _ => primaryThread fuel mapping c)

/-- The accepted message of a node, if any: the payload passed through
`_parse_message`. -/
def nodeMessage (n : GptNode) : Option Message :=
  n.message.bind parseGptMessage

/-! ## Demonstration inputs used by the concrete parts of the theorems -/

/-- A minimal raw user message payload with the given id and text. -/
def demoGptMsg (i t : String) : GptMsgData :=
  ⟨i, "user", "text", [.str t], false, none, none⟩

/-- The spec's example tree: root `A` with child `B`; `B` with
children `[C, D]` (`C` listed first); all four nodes carry a
message. -/
def demoMapping : List (String × GptNode) :=
  [("A", ⟨none, ["B"], some (demoGptMsg "mA" "A")⟩),
   ("B", ⟨some "A", ["C", "D"], some (demoGptMsg "mB" "B")⟩),
   ("C", ⟨some "B", [], some (demoGptMsg "mC" "C")⟩),
   ("D", ⟨some "B", [], some (demoGptMsg "mD" "D")⟩)]

/-- The example tree wrapped as a conversation record. -/
def demoGptConv : GptConv :=
  ⟨some "conv1", none, some "Tree", none, none, demoMapping⟩

/-- A one-message chat used by the round-trip and privacy examples. -/
def demoChat (text : String) : UniversalChat :=
  ⟨"id0", "claude", "f.json", "Title", none, none,
   [⟨"m0", .user, text, none, some []⟩], [], none⟩

/-- A two-message chat whose rendered lines are ten characters each,
used by the chunk-accounting examples. -/
def demoChat2 : UniversalChat :=
  ⟨"id2", "claude", "f.json", "Title", none, none,
   [⟨"m1", .user, "ab", none, some []⟩, ⟨"m2", .user, "cd", none, some []⟩], [], none⟩

/-- The projection of a message that no processor may change: its id,
role, timestamp and metadata (everything except the rewritable
text). -/
def msgKey (m : Message) : String × MessageRole × Option TimeVal × Option (List (String × String)) :=
  (m.id, m.role, m.timestamp, m.metadata)

/-! ## Proof-support predicates for the cleaner's idempotence

`tagSafe next g l` says that scanning `l` — in a context whose next
character is `next` and where `g` records whether a `'>'` occurs
beyond `l` — the tag pattern `<[^>]+>` can match at none of `l`'s
`'<'` positions: each `'<'` is immediately followed by `'>'` (so the
`[^>]+` part is empty) or sees no later `'>'` at all.  `tagFree` is
the closed form; `stripTags` produces it and fixes it. -/
def ltCond (next : Option Char) (g : Bool) : List Char → Bool
  | [] => next = some '>' || !g
  | d :: rest => d = '>' || (!((d :: rest).contains '>') && !g)

def tagSafe (next : Option Char) (g : Bool) : List Char → Bool
  | [] => true
  | c :: rest =>
    (if c = '<' then ltCond next g rest else true) && tagSafe next g rest

/-- No tag match can start anywhere in `l`. -/
def tagFree (l : List Char) : Bool := tagSafe none false l

/-- Whether any of the lines contains a `'>'`. -/
def anyGt (ls : List (List Char)) : Bool := ls.any (·.contains '>')

/-- `tagSafe` of a newline-joined document, stated per line. -/
def allSafe (g : Bool) : List (List Char) → Bool
  | [] => true
  | l :: ls => tagSafe none (anyGt ls || g) l && allSafe g ls

/-- No line of `l` is a boilerplate line (so the boilerplate pass
keeps all of them). -/
def noBpLines (l : List Char) : Prop :=
  ∀ line ∈ splitNl l, isBoilerplate (pytrim line) = false

/-! # Theorems -/

/-! ## C1: pre-order traversal along the primary thread -/

/-- The traversal emits exactly the accepted messages of the primary
thread, in thread order. -/
theorem traverseTree_eq_primaryThread (fuel : Nat) (mapping : List (String × GptNode))
    (node_id : String) :
    traverseTree fuel mapping node_id =
      (primaryThread fuel mapping node_id).filterMap nodeMessage := by
  induction fuel generalizing node_id with
  | zero => rfl
  | succ n ih =>
    simp only [traverseTree, primaryThread]
    cases hl : mapping.lookup node_id with
    | none => rfl
    | some node =>
      simp only [List.filterMap_cons, nodeMessage]
      cases hm : node.message with
      | none =>
        simp only [Option.none_bind]
        cases node.children with
        | nil => simp
        | cons c cs => simp [ih]
      | some md =>
        simp only [Option.some_bind]
        cases hp : parseGptMessage md with
        | none =>
          cases node.children with
          | nil => simp
          | cons c cs => simp [ih]
        | some m =>
          cases node.children with
          | nil => simp
          | cons c cs => simp [ih]

/-- Claim C1: for a record whose mapping forms a rooted tree, the
loader emits messages in pre-order along the primary thread — each
node's accepted message followed by the first child's subtree, other
children discarded.  Stated as (1) the traversal equals, for every
mapping and fuel, the accepted messages of the first-child chain, and
(2) on the spec's example tree `A → B → [C, D]` the loader yields
texts `A, B, C` and nothing from `D`'s subtree. -/
theorem claim_C1_primary_thread_traversal :
    (∀ (fuel : Nat) (mapping : List (String × GptNode)) (node_id : String),
        traverseTree fuel mapping node_id =
          (primaryThread fuel mapping node_id).filterMap nodeMessage) ∧
    findRoot demoMapping = some "A" ∧
    (loadGptRecord demoGptConv "f.json").map (fun c => c.messages.map Message.text) =
      some ["A", "B", "C"] :=
  ⟨traverseTree_eq_primaryThread, by decide, by decide⟩

/-! ## C5: canonical JSON export / re-load round trip -/

/-- Claim C5 counterexample: exporting a concrete one-message chat to
the canonical JSON document and re-loading it through either available
loader yields no chat at all, not an equal chat. -/
theorem claim_C5_round_trip_counterexample :
    claudeLoadDoc (jsonExportDoc [demoChat "hello"]) "g.json" = [] ∧
    gptLoadDoc (jsonExportDoc [demoChat "hello"]) "g.json" = [] ∧
    (demoChat "hello").messages ≠ [] :=
  ⟨rfl, rfl, by decide⟩

/-- Claim C5 amended: re-loading a canonical JSON export through the
system's loading interface reproduces nothing, for every chat list:
the flat-list loader finds no `chat_messages` key and skips every
record as empty, and the tree-reconstructing loader finds no `mapping`
key and hence no root.  No loader for the canonical format exists. -/
theorem claim_C5_round_trip_amended :
    ∀ (chats : List UniversalChat) (sf : String),
      claudeLoadDoc (jsonExportDoc chats) sf = [] ∧
      gptLoadDoc (jsonExportDoc chats) sf = [] := by
  intro chats sf
  constructor
  · simp only [claudeLoadDoc, jsonExportDoc, List.filterMap_map]
    exact List.filterMap_eq_nil_iff.mpr fun c _ => rfl
  · simp only [gptLoadDoc, jsonExportDoc, List.filterMap_map]
    exact List.filterMap_eq_nil_iff.mpr fun c _ => rfl

/-! ## C6: flat-list loader sender-to-role mapping -/

/-- Claim C6: the flat-list loader maps sender `human` to the user
role, `assistant` to the assistant role, and every other sender to the
system role; a record is only ever rejected for a blank effective
text, never for its sender. -/
theorem claim_C6_sender_role_mapping :
    ∀ msg : ClaudeMsgRec,
      (∀ m : Message, parseClaudeMessage msg = some m →
        m.role = (if msg.sender = "human" then MessageRole.user
                  else if msg.sender = "assistant" then MessageRole.assistant
                  else MessageRole.system)) ∧
      (parseClaudeMessage msg = none ↔
        (claudeEffectiveText msg = "" ∨ pystrip (claudeEffectiveText msg) = "")) := by
  intro msg
  constructor
  · intro m hm
    by_cases hb : claudeEffectiveText msg = "" ∨ pystrip (claudeEffectiveText msg) = ""
    · have hnone : parseClaudeMessage msg = none := by
        simp only [parseClaudeMessage, if_pos hb]
      rw [hnone] at hm
      exact Option.noConfusion hm
    · simp only [parseClaudeMessage, if_neg hb, Option.some.injEq] at hm
      subst hm
      rfl
  · by_cases hb : claudeEffectiveText msg = "" ∨ pystrip (claudeEffectiveText msg) = ""
    · simp only [parseClaudeMessage, if_pos hb]
      simpa using hb
    · simp only [parseClaudeMessage, if_neg hb]
      exact iff_of_false (by simp) hb

/-- Claim C6 witness: a record with the unknown sender `banana` and
text `hi` is accepted and lands on the system role. -/
theorem claim_C6_sender_role_mapping_witness :
    Message.role ⟨"u1", .system, "hi", none, some []⟩ =
      (if ("banana" : String) = "human" then MessageRole.user
       else if ("banana" : String) = "assistant" then MessageRole.assistant
       else MessageRole.system) :=
  (claim_C6_sender_role_mapping ⟨"u1", "hi", "banana", none, []⟩).1 _ (by decide)

/-! ## C8: privacy configuration validated at construction -/

/-- Claim C8: constructing the privacy redactor with any category name
outside the seven supported ones fails with a configuration error at
construction time; constructing it with only supported names succeeds
(the processing functions themselves are total in the model, so no
such error can arise mid-batch). -/
theorem claim_C8_privacy_config_error :
    (∀ (req : List String) (fmt t : String),
        t ∈ req → t ∉ piiKeys →
        ∃ e, PrivacyService.make (some req) fmt = .error e) ∧
    (∀ (req : List String) (fmt : String),
        (∀ t ∈ req, t ∈ piiKeys) →
        ∃ svc, PrivacyService.make (some req) fmt = .ok svc) := by
  constructor
  · intro req fmt t ht hbad
    match req, ht with
    | a :: as, ht =>
      unfold PrivacyService.make
      have : t ∈ (a :: as).filter fun u => !(piiKeys.contains u) := by
        rw [List.mem_filter]
        exact ⟨ht, by simpa using hbad⟩
      have hne : ((a :: as).filter fun u => !(piiKeys.contains u)).isEmpty = false := by
        cases hfil : (a :: as).filter fun u => !(piiKeys.contains u) with
        | nil => rw [hfil] at this; cases this
        | cons x xs => simp
      simp only [hne]
      exact ⟨_, rfl⟩
  · intro req fmt hall
    cases req with
    | nil => exact ⟨⟨piiKeys, fmt⟩, rfl⟩
    | cons a as =>
      unfold PrivacyService.make
      have hfil : ((a :: as).filter fun u => !(piiKeys.contains u)) = [] := by
        rw [List.filter_eq_nil_iff]
        intro u hu
        simpa using hall u hu
      simp only [hfil]
      exact ⟨_, rfl⟩

/-- Claim C8 witness: requesting the unknown category `location` fails
at construction; requesting `email` and `ssn` succeeds. -/
theorem claim_C8_privacy_config_error_witness :
    (∃ e, PrivacyService.make (some ["email", "location"]) DEFAULT_REPLACEMENT = .error e) ∧
    (∃ svc, PrivacyService.make (some ["email", "ssn"]) DEFAULT_REPLACEMENT = .ok svc) :=
  ⟨claim_C8_privacy_config_error.1 ["email", "location"] DEFAULT_REPLACEMENT "location"
      (by decide) (by decide),
   claim_C8_privacy_config_error.2 ["email", "ssn"] DEFAULT_REPLACEMENT (by decide)⟩

/-! ## C2 and C9: greedy chunk packing and its length accounting -/

/-- Length of the chunk-text join: the member lengths plus two
separator characters per joined message beyond the first. -/
theorem joinNN_length :
    ∀ ts : List String, ts ≠ [] →
      (joinNN ts).length = (ts.map String.length).sum + 2 * (ts.length - 1) := by
  intro ts
  induction ts with
  | nil => intro h; cases h rfl
  | cons t rest ih =>
    intro _
    cases rest with
    | nil => simp [joinNN]
    | cons t2 rest2 =>
      have h2 : joinNN (t :: t2 :: rest2) = t ++ "\n\n" ++ joinNN (t2 :: rest2) := rfl
      rw [h2]
      have ihv := ih (by simp)
      have hsep : ("\n\n" : String).length = 2 := rfl
      simp only [String.length_append, ihv, hsep, List.map_cons, List.sum_cons, List.length_cons]
      omega

/-- The packing loop never drops or duplicates a message: the
concatenation of the produced chunks' `message_ids` is the sealed
prefix plus the current chunk plus the ids still to come. -/
theorem createChunksLoop_ids (maxChars startId : Nat) (cid : String) (tags : List String) :
    ∀ (items : List (String × String)) (chunks : List Chunk) (curText curIds : List String)
      (curLen : Nat),
      (curText = [] → curIds = []) →
      ((createChunksLoop maxChars startId cid tags chunks curText curIds curLen items).map
          Chunk.message_ids).flatten
        = ((chunks.map Chunk.message_ids).flatten ++ curIds) ++ items.map Prod.snd := by
  intro items
  induction items with
  | nil =>
    intro chunks curText curIds curLen hcur
    cases curText with
    | nil =>
      simp [createChunksLoop, hcur rfl]
    | cons t ts =>
      simp [createChunksLoop, buildChunk]
  | cons item rest ih =>
    intro chunks curText curIds curLen hcur
    obtain ⟨msg_text, msgId⟩ := item
    simp only [createChunksLoop]
    split
    · rw [ih _ _ _ _ (by simp)]
      simp [buildChunk]
    · rw [ih _ _ _ _ (by simp)]
      simp

/-- The packing loop's size invariant: a sealed chunk holding at least
two messages has rendered lengths summing within the budget, so its
text exceeds the budget by at most the separators. -/
theorem createChunksLoop_bound (maxChars startId : Nat) (cid : String) (tags : List String) :
    ∀ (items : List (String × String)) (chunks : List Chunk) (curText curIds : List String)
      (curLen : Nat),
      curLen = (curText.map String.length).sum →
      curIds.length = curText.length →
      (2 ≤ curText.length → curLen ≤ maxChars) →
      (∀ c ∈ chunks, 2 ≤ c.message_ids.length →
          c.text.length ≤ maxChars + 2 * (c.message_ids.length - 1)) →
      ∀ c ∈ createChunksLoop maxChars startId cid tags chunks curText curIds curLen items,
        2 ≤ c.message_ids.length →
          c.text.length ≤ maxChars + 2 * (c.message_ids.length - 1) := by
  intro items
  induction items with
  | nil =>
    intro chunks curText curIds curLen hlen hn hfit hprev c hc
    simp only [createChunksLoop] at hc
    split at hc
    · exact hprev c hc
    · rw [List.mem_append] at hc
      rcases hc with hc | hc
      · exact hprev c hc
      · rw [List.mem_singleton] at hc
        subst hc
        intro h2
        simp only [buildChunk] at h2 ⊢
        have hne : curText ≠ [] := by
          intro h
          rename_i hApp
          exact hApp (by simp [h])
        rw [joinNN_length curText hne]
        have : curLen ≤ maxChars := hfit (by omega)
        omega
  | cons item rest ih =>
    intro chunks curText curIds curLen hlen hn hfit hprev c hc
    obtain ⟨msg_text, msgId⟩ := item
    simp only [createChunksLoop] at hc
    split at hc
    · rename_i hguard
      refine ih _ [msg_text] [msgId] _ (by simp) rfl (by intro h; simp at h) ?_ c hc
      intro c2 hc2 h2
      rw [List.mem_append] at hc2
      rcases hc2 with hc2 | hc2
      · exact hprev c2 hc2 h2
      · rw [List.mem_singleton] at hc2
        subst hc2
        simp only [buildChunk] at h2 ⊢
        have hne : curText ≠ [] := by
          intro h
          exact absurd (by simp [h] : curText.isEmpty = true) (by simpa using hguard.2)
        rw [joinNN_length curText hne]
        have : curLen ≤ maxChars := by
          apply hfit
          omega
        omega
    · rename_i hguard
      refine ih _ _ _ _ ?_ ?_ ?_ hprev c hc
      · simp [hlen]
      · simp [hn]
      · intro h2
        by_cases hct : curText = []
        · subst hct
          simp at h2
        · have : ¬ (maxChars < curLen + msg_text.length) := by
            intro hlt
            exact hguard ⟨hlt, by simpa using hct⟩
          omega

/-- Claim C2: chunks are packed greedily — a message that would push a
non-empty chunk's running rendered-length total strictly over the
character budget seals the chunk and opens a new one, while an
oversized message landing in an empty chunk stays there; no message id
is lost and every multi-message chunk's rendered lengths fit the
budget.  The loop on rendered lines of length 8 against budget 10
yields two chunks; lines of length 3 yield one. -/
theorem claim_C2_greedy_chunk_packing :
    (∀ (e : AspendosExporter) (chat : UniversalChat) (start_id : Nat),
        ((e.createChunks chat start_id).map Chunk.message_ids).flatten =
          chat.messages.map Message.id) ∧
    (∀ (e : AspendosExporter) (chat : UniversalChat) (start_id : Nat),
        ∀ c ∈ e.createChunks chat start_id, 2 ≤ c.message_ids.length →
          c.text.length ≤ e.max_chars + 2 * (c.message_ids.length - 1)) ∧
    (createChunksLoop 10 0 "c" [] [] [] [] 0 [("12345678", "m1"), ("12345678", "m2")]).length = 2 ∧
    (createChunksLoop 10 0 "c" [] [] [] [] 0 [("123", "m1"), ("123", "m2")]).length = 1 := by
  refine ⟨?_, ?_, by decide, by decide⟩
  · intro e chat start_id
    unfold AspendosExporter.createChunks
    rw [createChunksLoop_ids _ _ _ _ _ _ _ _ _ (fun _ => rfl)]
    simp [List.map_map]
  · intro e chat start_id
    exact createChunksLoop_bound _ _ _ _ _ _ _ _ _ rfl rfl (by simp) (by simp)

/-- Claim C2 witness: the size invariant applied to the concrete chunk
produced from two ten-character lines against the twenty-character
budget. -/
theorem claim_C2_greedy_chunk_packing_witness :
    (Chunk.text ⟨"chunk_0", "id2", "[USER]: ab\n\n[USER]: cd", ["m1", "m2"], [], 5⟩).length ≤
      (AspendosExporter.mk 5 true).max_chars +
        2 * ((Chunk.message_ids ⟨"chunk_0", "id2", "[USER]: ab\n\n[USER]: cd", ["m1", "m2"], [], 5⟩).length - 1) :=
  claim_C2_greedy_chunk_packing.2.1 (AspendosExporter.mk 5 true) demoChat2 0
    ⟨"chunk_0", "id2", "[USER]: ab\n\n[USER]: cd", ["m1", "m2"], [], 5⟩ (by decide) (by decide)

/-- Claim C9: the running total counts only the rendered message
texts, not the two-character separators of the final join, so a
chunk's final text can exceed the budget even though every rendered
message fits it: the join's length is the member lengths plus two per
joined message beyond the first, and on a concrete chat whose two
rendered lines are ten characters each against a twenty-character
budget, the single produced chunk has twenty-two characters. -/
theorem claim_C9_separator_accounting :
    (∀ (n : Nat) (cid : String) (ids tags ts : List String), ts ≠ [] →
        (buildChunk n cid (joinNN ts) ids tags).text.length =
          (ts.map String.length).sum + 2 * (ts.length - 1)) ∧
    (demoChat2.messages.map fun m => (renderMsg m).length).all (fun n => n ≤ 20) = true ∧
    (AspendosExporter.mk 5 true).max_chars = 20 ∧
    ((AspendosExporter.mk 5 true).createChunks demoChat2 0).map (fun c => c.text.length) = [22] := by
  refine ⟨?_, by decide, by decide, by decide⟩
  intro n cid ids tags ts hne
  simpa [buildChunk] using joinNN_length ts hne

/-- Claim C9 witness: the join-length accounting at two two-character
members. -/
theorem claim_C9_separator_accounting_witness :
    (buildChunk 0 "c" (joinNN ["aa", "bb"]) [] []).text.length =
      ((["aa", "bb"] : List String).map String.length).sum + 2 * ((["aa", "bb"] : List String).length - 1) :=
  claim_C9_separator_accounting.1 0 "c" [] [] ["aa", "bb"] (by decide)

/-! ## C10: detect's result scope -/

/-- Membership in `detect`'s findings, characterised: exactly the
configured categories whose pattern has at least one match, carrying
that category's `findall` result. -/
theorem detect_mem (svc : PrivacyService) (text t : String) (ms : List String) :
    (t, ms) ∈ svc.detect text ↔
      t ∈ svc.redact_types ∧
      ∃ p, PII_PATTERNS.lookup t = some p ∧ reFindall p text ≠ [] ∧ ms = reFindall p text := by
  unfold PrivacyService.detect
  rw [List.mem_filterMap]
  constructor
  · rintro ⟨a, ha, hf⟩
    cases hl : PII_PATTERNS.lookup a with
    | none =>
      simp only [hl] at hf
      exact Option.noConfusion hf
    | some p =>
      simp only [hl] at hf
      by_cases he : (reFindall p text).isEmpty = true
      · rw [if_pos he] at hf
        exact Option.noConfusion hf
      · rw [if_neg he] at hf
        obtain ⟨rfl, rfl⟩ := Prod.mk.injEq .. ▸ (Option.some.injEq _ _).mp hf
        exact ⟨ha, p, hl, by simpa using he, rfl⟩
  · rintro ⟨ht, p, hp, hne, rfl⟩
    refine ⟨t, ht, ?_⟩
    simp only [hp]
    rw [if_neg (by simpa using hne)]

/-- Claim C10: `detect` returns findings only for configured
categories — an unconfigured category never appears even when the text
matches it, and a configured category with zero matches is absent
rather than mapped to an empty list; `detect` is a pure function of
the text (it performs no mutation in the model by construction).
Concretely, on `contact me at a@b.com` an email-only service reports
exactly the email finding, and a phone-only service reports nothing. -/
theorem claim_C10_detect_result_scope :
    (∀ (svc : PrivacyService) (text t : String) (ms : List String),
        (t, ms) ∈ svc.detect text →
          t ∈ svc.redact_types ∧ ms ≠ [] ∧
          ∃ p, PII_PATTERNS.lookup t = some p ∧ ms = reFindall p text) ∧
    (∀ (svc : PrivacyService) (text t : String) (p : RE),
        PII_PATTERNS.lookup t = some p → reFindall p text = [] →
        ∀ ms, (t, ms) ∉ svc.detect text) ∧
    PrivacyService.detect ⟨["email"], DEFAULT_REPLACEMENT⟩ "contact me at a@b.com" =
      [("email", ["a@b.com"])] ∧
    PrivacyService.detect ⟨["phone"], DEFAULT_REPLACEMENT⟩ "contact me at a@b.com" = [] := by
  refine ⟨?_, ?_, by decide, by decide⟩
  · intro svc text t ms hmem
    obtain ⟨ht, p, hp, hne, rfl⟩ := (detect_mem svc text t ms).mp hmem
    exact ⟨ht, hne, p, hp, rfl⟩
  · intro svc text t p hp hnil ms hmem
    obtain ⟨-, q, hq, hqne, -⟩ := (detect_mem svc text t ms).mp hmem
    rw [hp] at hq
    cases hq
    exact hqne hnil

/-- Claim C10 witness: a phone-only finding cannot appear for the
email-bearing text, since the phone pattern has no match there. -/
theorem claim_C10_detect_result_scope_witness :
    ("phone", ["555"]) ∉
      PrivacyService.detect ⟨["phone"], DEFAULT_REPLACEMENT⟩ "contact me at a@b.com" :=
  claim_C10_detect_result_scope.2.1 ⟨["phone"], DEFAULT_REPLACEMENT⟩
    "contact me at a@b.com" "phone" phoneRE rfl (by decide) ["555"]

/-! ## C7: processors only remove or rewrite, never add or reorder -/

/-- Sublist transport through a `filterMap` whose hits preserve a
projection. -/
theorem filterMap_map_sublist {α β : Type _} (f : α → Option α) (g : α → β)
    (h : ∀ a b, f a = some b → g b = g a) :
    ∀ l : List α, ((l.filterMap f).map g).Sublist (l.map g) := by
  intro l
  induction l with
  | nil => simp
  | cons a l ih =>
    cases hfa : f a with
    | none =>
      simp only [List.filterMap_cons, hfa, List.map_cons]
      exact ih.cons _
    | some b =>
      simp only [List.filterMap_cons, hfa, List.map_cons]
      rw [h a b hfa]
      exact ih.cons₂ _

/-- Claim C7: each processor's output message count is at most its
input's, and the surviving messages keep their identity (id, role,
timestamp, metadata) in the input's relative order — the cleaner
filters, the privacy redactor maps one-to-one, the tagger returns the
message list untouched. -/
theorem claim_C7_processors_filter_only :
    (∀ (svc : CleanerService) (chat : UniversalChat),
        ((CleanerService.process svc chat).messages.map msgKey).Sublist
            (chat.messages.map msgKey) ∧
          (CleanerService.process svc chat).messages.length ≤ chat.messages.length) ∧
    (∀ (svc : PrivacyService) (chat : UniversalChat),
        (PrivacyService.process svc chat).messages.map msgKey = chat.messages.map msgKey ∧
          (PrivacyService.process svc chat).messages.length = chat.messages.length) ∧
    (∀ (svc : TaggerService) (chat : UniversalChat),
        (TaggerService.process svc chat).messages = chat.messages) := by
  refine ⟨?_, ?_, fun _ _ => rfl⟩
  · intro svc chat
    constructor
    · apply filterMap_map_sublist
      intro m m' hf
      unfold CleanerService.cleanMessage at hf
      split at hf
      · exact Option.noConfusion hf
      · dsimp only at hf
        split at hf
        · exact Option.noConfusion hf
        · obtain rfl := (Option.some.injEq _ _).mp hf
          rfl
    · exact List.length_filterMap_le _ _
  · intro svc chat
    constructor
    · show (chat.messages.map _).map msgKey = chat.messages.map msgKey
      rw [List.map_map]
      rfl
    · show (chat.messages.map _).length = chat.messages.length
      rw [List.length_map]

/-! ## C3: non-empty text of surviving messages -/

/-- Claim C3 counterexample: the privacy redactor never filters, and
with an empty replacement template it turns the non-blank message
`a@b.com` into a surviving message whose text is empty; such a
configuration constructs successfully. -/
theorem claim_C3_nonempty_text_counterexample :
    PrivacyService.make (some ["email"]) "" = .ok ⟨["email"], ""⟩ ∧
    ((PrivacyService.process ⟨["email"], ""⟩ (demoChat "a@b.com")).messages.map Message.text)
      = [""] ∧
    (∀ m ∈ (demoChat "a@b.com").messages, m.text ≠ "") := by
  refine ⟨rfl, by decide, by decide⟩

/-- A replacement scan of a non-empty input with a non-empty
replacement never produces the empty string. -/
theorem subFromAux_ne_nil (fuel : Nat) (r : RE) (repl : List Char) (prev : Option Char)
    (s : List Char) (hs : s ≠ []) (hr : repl ≠ []) :
    subFromAux fuel r repl prev s ≠ [] := by
  cases fuel with
  | zero => exact hs
  | succ n =>
    cases s with
    | nil => exact absurd rfl hs
    | cons c rest =>
      simp only [subFromAux]
      cases matchLen (reFuel (c :: rest)) r prev (c :: rest) with
      | none => simp
      | some k =>
        cases k with
        | zero => simp [hr]
        | succ k2 => simp [hr]

/-- `reSub` on strings preserves non-emptiness when the replacement is
non-empty. -/
theorem reSub_ne_empty (r : RE) (repl s : String) (hs : s ≠ "") (hr : repl ≠ "") :
    reSub r repl s ≠ "" := by
  intro h
  have hsd : s.data ≠ [] := fun hh => hs (String.ext hh)
  have hrd : repl.data ≠ [] := fun hh => hr (String.ext hh)
  apply subFromAux_ne_nil (s.data.length + 1) r repl.data none s.data hsd hrd
  have := congrArg String.data h
  simpa [reSub, subFrom] using this

/-- `_redact_text` preserves non-emptiness when every configured
category's formatted replacement is non-empty. -/
theorem redactText_ne_empty (svc : PrivacyService) (text : String)
    (hfmt : ∀ t ∈ svc.redact_types, formatType svc.replacement_format (upperAscii t) ≠ "")
    (ht : text ≠ "") : svc.redactText text ≠ "" := by
  unfold PrivacyService.redactText
  rw [if_neg ht]
  suffices h : ∀ (l : List String) (acc : String), acc ≠ "" →
      (∀ t ∈ l, formatType svc.replacement_format (upperAscii t) ≠ "") →
      l.foldl (fun result pii_type =>
        match PII_PATTERNS.lookup pii_type with
        | some pattern =>
          reSub pattern (formatType svc.replacement_format (upperAscii pii_type)) result
        | none => result) acc ≠ "" by
    exact h svc.redact_types text ht hfmt
  intro l
  induction l with
  | nil => intro acc ha _; exact ha
  | cons t ts ih =>
    intro acc ha hl
    simp only [List.foldl_cons]
    apply ih _ _ (fun u hu => hl u (List.mem_cons_of_mem _ hu))
    cases hp : PII_PATTERNS.lookup t with
    | none => simpa [hp] using ha
    | some p =>
      simp only [hp]
      exact reSub_ne_empty p _ acc ha (hl t (List.mem_cons_self _ _))

/-- Claim C3 amended: every message surviving either loader or the
cleaner has non-empty text, and the tagger preserves the message list
verbatim; the privacy redactor, however, filters nothing — it
preserves non-emptiness only under the additional premise that every
configured category's formatted replacement is non-empty (true of the
default template, violated by an empty one, as the counterexample
shows). -/
theorem claim_C3_nonempty_text_amended :
    (∀ (rec : ClaudeMsgRec) (m : Message), parseClaudeMessage rec = some m → m.text ≠ "") ∧
    (∀ (d : GptMsgData) (m : Message), parseGptMessage d = some m → m.text ≠ "") ∧
    (∀ (svc : CleanerService) (chat : UniversalChat),
        ∀ m ∈ (CleanerService.process svc chat).messages, m.text ≠ "") ∧
    (∀ (svc : TaggerService) (chat : UniversalChat),
        (TaggerService.process svc chat).messages = chat.messages) ∧
    (∀ (svc : PrivacyService) (chat : UniversalChat),
        (∀ t ∈ svc.redact_types, formatType svc.replacement_format (upperAscii t) ≠ "") →
        (∀ m ∈ chat.messages, m.text ≠ "") →
        ∀ m ∈ (PrivacyService.process svc chat).messages, m.text ≠ "") := by
  refine ⟨?_, ?_, ?_, fun _ _ => rfl, ?_⟩
  · intro rec m hm
    by_cases hb : claudeEffectiveText rec = "" ∨ pystrip (claudeEffectiveText rec) = ""
    · have hnone : parseClaudeMessage rec = none := by
        simp only [parseClaudeMessage, if_pos hb]
      rw [hnone] at hm
      exact Option.noConfusion hm
    · simp only [parseClaudeMessage, if_neg hb, Option.some.injEq] at hm
      subst hm
      exact fun h => hb (Or.inr h)
  · intro d m hm
    simp only [parseGptMessage] at hm
    split at hm
    · exact Option.noConfusion hm
    · split at hm
      · exact Option.noConfusion hm
      · split at hm
        · exact Option.noConfusion hm
        · rename_i htext
          split at hm
          · exact Option.noConfusion hm
          · obtain rfl := (Option.some.injEq _ _).mp hm
            exact htext
  · intro svc chat m hmem
    rw [show (CleanerService.process svc chat).messages
          = chat.messages.filterMap _ from rfl, List.mem_filterMap] at hmem
    obtain ⟨a, _, hf⟩ := hmem
    unfold CleanerService.cleanMessage at hf
    split at hf
    · exact Option.noConfusion hf
    · dsimp only at hf
      split at hf
      · exact Option.noConfusion hf
      · rename_i hnb
        obtain rfl := (Option.some.injEq _ _).mp hf
        exact fun h => hnb (Or.inl h)
  · intro svc chat hfmt hmsgs m hmem
    rw [show (PrivacyService.process svc chat).messages
          = chat.messages.map _ from rfl, List.mem_map] at hmem
    obtain ⟨a, ha, rfl⟩ := hmem
    exact redactText_ne_empty svc a.text hfmt (hmsgs a ha)

/-- Claim C3 witness: the amended privacy conjunct at the default
template on the concrete email-bearing chat — the surviving redacted
message is non-empty. -/
theorem claim_C3_nonempty_text_amended_witness :
    Message.text ⟨"m0", .user, "contact me at [REDACTED_EMAIL]", none, some []⟩ ≠ "" :=
  claim_C3_nonempty_text_amended.2.2.2.2 ⟨["email"], DEFAULT_REPLACEMENT⟩
    (demoChat "contact me at a@b.com") (by decide) (by decide) _ (by decide)

/-! ## C4 support: lines and joining -/

/-- Splitting never yields an empty list of lines. -/
theorem splitNl_ne_nil (l : List Char) : splitNl l ≠ [] := by
  cases l with
  | nil => simp [splitNl]
  | cons c rest =>
    by_cases h : c = '\n'
    · subst h; simp [splitNl]
    · simp only [splitNl, if_neg h]
      cases splitNl rest <;> simp

/-- Splitting a newline-headed text. -/
theorem splitNl_cons_nl (rest : List Char) : splitNl ('\n' :: rest) = [] :: splitNl rest := by
  simp [splitNl]

/-- Splitting under a non-newline head. -/
theorem splitNl_cons (c : Char) (rest : List Char) (h : c ≠ '\n') (l : List Char)
    (ls : List (List Char)) (hrest : splitNl rest = l :: ls) :
    splitNl (c :: rest) = (c :: l) :: ls := by
  simp [splitNl, if_neg h, hrest]

/-- Lines carry no newline. -/
theorem mem_splitNl_no_nl (l : List Char) : ∀ line ∈ splitNl l, '\n' ∉ line := by
  induction l with
  | nil => simp [splitNl]
  | cons c rest ih =>
    by_cases h : c = '\n'
    · subst h
      rw [splitNl_cons_nl]
      intro line hline
      rcases hline with _ | hline
      · simp
      · exact ih _ (by assumption)
    · cases hrest : splitNl rest with
      | nil => exact absurd hrest (splitNl_ne_nil rest)
      | cons l0 ls =>
        rw [splitNl_cons c rest h l0 ls hrest]
        intro line hline
        rcases hline with _ | hline
        · have := ih l0 (by rw [hrest]; exact List.mem_cons_self _ _)
          simp only [List.mem_cons]
          rintro (rfl | hmem)
          · exact h rfl
          · exact this hmem
        · exact ih _ (by rw [hrest]; exact List.mem_cons_of_mem _ (by assumption))

/-- Joining the split reproduces the text. -/
theorem joinNl_splitNl (l : List Char) : joinNl (splitNl l) = l := by
  induction l with
  | nil => rfl
  | cons c rest ih =>
    by_cases h : c = '\n'
    · subst h
      rw [splitNl_cons_nl]
      cases hrest : splitNl rest with
      | nil => exact absurd hrest (splitNl_ne_nil rest)
      | cons l0 ls =>
        rw [hrest] at ih
        show joinNl ([] :: l0 :: ls) = '\n' :: rest
        show [] ++ '\n' :: joinNl (l0 :: ls) = '\n' :: rest
        simp [ih]
    · cases hrest : splitNl rest with
      | nil => exact absurd hrest (splitNl_ne_nil rest)
      | cons l0 ls =>
        rw [splitNl_cons c rest h l0 ls hrest]
        rw [hrest] at ih
        cases ls with
        | nil =>
          show (c :: l0 : List Char) = c :: rest
          simpa using ih
        | cons l1 ls1 =>
          show (c :: l0) ++ '\n' :: joinNl (l1 :: ls1) = c :: rest
          simpa using ih

/-- A newline-free text is a single line. -/
theorem splitNl_no_nl (l : List Char) (h : '\n' ∉ l) : splitNl l = [l] := by
  induction l with
  | nil => rfl
  | cons c rest ih =>
    have hc : c ≠ '\n' := fun hh => h (hh ▸ List.mem_cons_self _ _)
    have hrest := ih fun hh => h (List.mem_cons_of_mem _ hh)
    exact splitNl_cons c rest hc rest [] hrest

/-- Splitting around the first newline after a newline-free prefix. -/
theorem splitNl_append_nl (a b : List Char) (h : '\n' ∉ a) :
    splitNl (a ++ '\n' :: b) = a :: splitNl b := by
  induction a with
  | nil => simpa using splitNl_cons_nl b
  | cons c a0 ih =>
    have hc : c ≠ '\n' := fun hh => h (hh ▸ List.mem_cons_self _ _)
    have ha0 := ih fun hh => h (List.mem_cons_of_mem _ hh)
    cases hb : splitNl b with
    | nil => exact absurd hb (splitNl_ne_nil b)
    | cons l0 ls =>
      rw [hb] at ha0
      have := splitNl_cons c (a0 ++ '\n' :: b) hc a0 (l0 :: ls) (by rw [ha0])
      simpa using this

/-- Splitting a join of newline-free lines reproduces them. -/
theorem splitNl_joinNl (ls : List (List Char)) (hne : ls ≠ [])
    (hnl : ∀ line ∈ ls, '\n' ∉ line) : splitNl (joinNl ls) = ls := by
  induction ls with
  | nil => exact absurd rfl hne
  | cons l rest ih =>
    cases rest with
    | nil =>
      show splitNl (joinNl [l]) = [l]
      exact splitNl_no_nl l (hnl l (List.mem_cons_self _ _))
    | cons l1 rest1 =>
      show splitNl (l ++ '\n' :: joinNl (l1 :: rest1)) = l :: l1 :: rest1
      rw [splitNl_append_nl _ _ (hnl l (List.mem_cons_self _ _))]
      rw [ih (by simp) fun line hline => hnl line (List.mem_cons_of_mem _ hline)]

/-- The first line is the longest newline-free prefix. -/
theorem splitNl_head (l : List Char) :
    (splitNl l).headD [] = l.takeWhile (fun c => !(c = '\n' : Bool)) := by
  induction l with
  | nil => rfl
  | cons c rest ih =>
    by_cases hc : c = '\n'
    · subst hc; simp [splitNl_cons_nl, List.takeWhile]
    · cases hrest : splitNl rest with
      | nil => exact absurd hrest (splitNl_ne_nil rest)
      | cons l0 ls =>
        rw [splitNl_cons c rest hc l0 ls hrest]
        rw [hrest] at ih
        simp only [List.headD] at ih ⊢
        simp [List.takeWhile, hc, ← ih]

/-! ## C4 support: trailing-trim structure -/

/-- A trailing trim that returns nothing saw only whitespace. -/
theorem pytrimEnd_eq_nil (l : List Char) (h : pytrimEnd l = []) : ∀ c ∈ l, pyWs c = true := by
  induction l with
  | nil => simp
  | cons c rest ih =>
    simp only [pytrimEnd] at h
    cases hr : pytrimEnd rest with
    | nil =>
      rw [hr] at h
      by_cases hw : pyWs c
      · intro d hd
        rcases List.mem_cons.mp hd with rfl | hd
        · exact hw
        · exact ih hr d hd
      · rw [if_neg hw] at h
        cases h
    | cons x xs =>
      rw [hr] at h
      cases h

/-- Trailing trim of an all-whitespace text is empty. -/
theorem pytrimEnd_of_allWs (l : List Char) (h : ∀ c ∈ l, pyWs c = true) : pytrimEnd l = [] := by
  induction l with
  | nil => rfl
  | cons c rest ih =>
    have hr := ih fun d hd => h d (List.mem_cons_of_mem _ hd)
    simp only [pytrimEnd, hr]
    rw [if_pos (h c (List.mem_cons_self _ _))]

/-- Trailing trim only removes characters. -/
theorem pytrimEnd_sublist (l : List Char) : (pytrimEnd l).Sublist l := by
  induction l with
  | nil => simp [pytrimEnd]
  | cons c rest ih =>
    simp only [pytrimEnd]
    cases hr : pytrimEnd rest with
    | nil =>
      by_cases hw : pyWs c
      · simp [hw, pytrimEnd]
      · simp only [if_neg hw]
        exact (List.nil_sublist rest).cons₂ c
    | cons x xs =>
      rw [hr] at ih
      exact ih.cons₂ c

/-- Trailing trim is idempotent. -/
theorem pytrimEnd_idem (l : List Char) : pytrimEnd (pytrimEnd l) = pytrimEnd l := by
  induction l with
  | nil => rfl
  | cons c rest ih =>
    cases hr : pytrimEnd rest with
    | nil =>
      simp only [pytrimEnd, hr]
      by_cases hw : pyWs c
      · simp [hw, pytrimEnd]
      · simp [hw, pytrimEnd]
    | cons x xs =>
      rw [hr] at ih
      have h1 : pytrimEnd (c :: rest) = c :: x :: xs := by simp [pytrimEnd, hr]
      rw [h1, show pytrimEnd (c :: x :: xs)
            = (match pytrimEnd (x :: xs) with
               | [] => if pyWs c = true then [] else [c]
               | r => c :: r) from rfl, ih]

/-- The head surviving a leading trim is not whitespace. -/
theorem dropWhile_pyWs_head (l : List Char) :
    ∀ y ys, l.dropWhile pyWs = y :: ys → pyWs y = false := by
  induction l with
  | nil => intro y ys h; cases h
  | cons c rest ih =>
    intro y ys h
    by_cases hw : pyWs c
    · rw [List.dropWhile_cons_of_pos hw] at h
      exact ih y ys h
    · rw [List.dropWhile_cons_of_neg hw] at h
      cases h
      simpa using hw

/-- Leading and trailing trims commute. -/
theorem dropWhile_pytrimEnd_comm (l : List Char) :
    (pytrimEnd l).dropWhile pyWs = pytrimEnd (l.dropWhile pyWs) := by
  induction l with
  | nil => rfl
  | cons c rest ih =>
    by_cases hw : pyWs c
    · cases hr : pytrimEnd rest with
      | nil =>
        have hall := pytrimEnd_eq_nil rest hr
        have hdw : rest.dropWhile pyWs = [] := by
          cases hd : rest.dropWhile pyWs with
          | nil => rfl
          | cons y ys =>
            have hy := dropWhile_pyWs_head rest y ys hd
            have hmem : y ∈ rest := (List.dropWhile_sublist pyWs (l := rest)).subset (by simp [hd])
            rw [hall y hmem] at hy
            cases hy
        simp only [pytrimEnd, hr, if_pos hw, List.dropWhile_cons_of_pos hw, hdw]
        rfl
      | cons x xs =>
        simp only [pytrimEnd, hr, List.dropWhile_cons_of_pos hw]
        rw [← hr, ih]
    · simp only [List.dropWhile_cons_of_neg hw]
      cases hr : pytrimEnd rest with
      | nil =>
        simp only [pytrimEnd, hr, if_neg hw]
        rw [List.dropWhile_cons_of_neg hw]
      | cons x xs =>
        simp only [pytrimEnd, hr]
        rw [List.dropWhile_cons_of_neg hw]

/-- Leading trim is idempotent. -/
theorem dropWhile_pyWs_idem (l : List Char) :
    (l.dropWhile pyWs).dropWhile pyWs = l.dropWhile pyWs := by
  cases hd : l.dropWhile pyWs with
  | nil => rfl
  | cons y ys =>
    have hy := dropWhile_pyWs_head l y ys hd
    rw [List.dropWhile_cons_of_neg (by simp [hy])]

/-- The full trim is idempotent. -/
theorem pytrim_idem (l : List Char) : pytrim (pytrim l) = pytrim l := by
  unfold pytrim
  rw [dropWhile_pytrimEnd_comm, dropWhile_pyWs_idem, pytrimEnd_idem]

/-- Trimming after a trailing trim is just trimming. -/
theorem pytrim_pytrimEnd (l : List Char) : pytrim (pytrimEnd l) = pytrim l := by
  unfold pytrim
  rw [dropWhile_pytrimEnd_comm, pytrimEnd_idem]

/-- A leading whitespace character does not affect the trim. -/
theorem pytrim_cons_ws (c : Char) (l : List Char) (h : pyWs c = true) :
    pytrim (c :: l) = pytrim l := by
  unfold pytrim
  rw [List.dropWhile_cons_of_pos h]

/-- The trim of an all-whitespace text is empty. -/
theorem pytrim_of_allWs (l : List Char) (h : ∀ c ∈ l, pyWs c = true) : pytrim l = [] := by
  unfold pytrim
  exact pytrimEnd_of_allWs _ fun c hc =>
    h c ((List.dropWhile_sublist pyWs (l := l)).subset hc)

/-- An all-whitespace tail does not affect the trim of a one-character
head. -/
theorem pytrim_cons_allWs (c : Char) (y : List Char) (h : ∀ d ∈ y, pyWs d = true) :
    pytrim (c :: y) = pytrim [c] := by
  by_cases hw : pyWs c
  · rw [pytrim_cons_ws c y hw, pytrim_of_allWs y h, pytrim_cons_ws c [] hw]
    rfl
  · unfold pytrim
    rw [List.dropWhile_cons_of_neg (by simp [hw]), List.dropWhile_cons_of_neg (by simp [hw])]
    simp only [pytrimEnd, pytrimEnd_of_allWs y h, if_neg (by simp [hw] : ¬ pyWs c = true)]

/-- Structure of the trailing trim at line granularity: it keeps a
prefix of the lines intact, trailing-trims one line, and drops the
(all-whitespace) rest. -/
theorem pytrimEnd_splitNl (x : List Char) :
    ∃ pre l0 suf, splitNl x = pre ++ l0 :: suf ∧
      splitNl (pytrimEnd x) = pre ++ [pytrimEnd l0] := by
  induction x with
  | nil => exact ⟨[], [], [], rfl, rfl⟩
  | cons c rest ih =>
    obtain ⟨pre, l0, suf, h1, h2⟩ := ih
    by_cases hc : c = '\n'
    · subst hc
      cases hr : pytrimEnd rest with
      | nil =>
        refine ⟨[], [], splitNl rest, by rw [splitNl_cons_nl]; rfl, ?_⟩
        have : pytrimEnd ('\n' :: rest) = [] := by
          simp [pytrimEnd, hr, show pyWs '\n' = true from rfl]
        rw [this]
        rfl
      | cons r0 rs =>
        refine ⟨[] :: pre, l0, suf, ?_, ?_⟩
        · rw [splitNl_cons_nl, h1]
          rfl
        · have : pytrimEnd ('\n' :: rest) = '\n' :: pytrimEnd rest := by
            simp [pytrimEnd, hr]
          rw [this, splitNl_cons_nl, h2]
          rfl
    · cases hrest : splitNl rest with
      | nil => exact absurd hrest (splitNl_ne_nil rest)
      | cons h0 t0 =>
        cases hr : pytrimEnd rest with
        | nil =>
          have hall := pytrimEnd_eq_nil rest hr
          have hh0 : ∀ d ∈ h0, pyWs d = true := by
            intro d hd
            have hhd : h0 = rest.takeWhile (fun ch => !(ch = '\n' : Bool)) := by
              have := splitNl_head rest
              rw [hrest] at this
              simpa using this
            rw [hhd] at hd
            exact hall d ((List.takeWhile_sublist _).subset hd)
          have hend0 : pytrimEnd h0 = [] := pytrimEnd_of_allWs h0 hh0
          refine ⟨[], c :: h0, t0, by rw [splitNl_cons c rest hc h0 t0 hrest]; rfl, ?_⟩
          have hstep : pytrimEnd (c :: rest) = if pyWs c then [] else [c] := by
            simp [pytrimEnd, hr]
          have hstep2 : pytrimEnd (c :: h0) = if pyWs c then [] else [c] := by
            simp [pytrimEnd, hend0]
          rw [hstep]
          by_cases hw : pyWs c
          · rw [if_pos hw]
            simp [hstep2, hw, splitNl]
          · rw [if_neg hw]
            rw [splitNl_no_nl [c] (by simp only [List.mem_singleton]; exact fun h => hc h.symm)]
            simp [hstep2, hw]
        | cons r0 rs =>
          have hstep : pytrimEnd (c :: rest) = c :: pytrimEnd rest := by
            simp [pytrimEnd, hr]
          cases pre with
          | nil =>
            simp only [List.nil_append] at h1 h2
            have hrline : pytrimEnd rest = pytrimEnd l0 := by
              have hnl : '\n' ∉ pytrimEnd l0 := fun hmem =>
                mem_splitNl_no_nl rest l0 (h1 ▸ List.mem_cons_self _ _)
                  ((pytrimEnd_sublist l0).subset hmem)
              have := joinNl_splitNl (pytrimEnd rest)
              rw [h2] at this
              simpa [joinNl] using this.symm
            have hne : pytrimEnd l0 ≠ [] := by
              rw [← hrline, hr]
              simp
            refine ⟨[], c :: l0, suf, by rw [splitNl_cons c rest hc l0 suf h1]; rfl, ?_⟩
            have : pytrimEnd (c :: l0) = c :: pytrimEnd l0 := by
              cases hz : pytrimEnd l0 with
              | nil => exact absurd hz hne
              | cons z zs => simp [pytrimEnd, hz]
            rw [hstep, hrline, this]
            rw [splitNl_no_nl _ ?_]
            · rfl
            · intro hmem
              rcases List.mem_cons.mp hmem with h | h
              · exact hc h.symm
              · exact mem_splitNl_no_nl rest l0 (h1 ▸ List.mem_cons_self _ _)
                  ((pytrimEnd_sublist l0).subset h)
          | cons p pre2 =>
            simp only [List.cons_append] at h1 h2
            refine ⟨(c :: p) :: pre2, l0, suf, ?_, ?_⟩
            · rw [splitNl_cons c rest hc p (pre2 ++ l0 :: suf) h1]
              rfl
            · rw [hstep]
              rw [splitNl_cons c (pytrimEnd rest) hc p (pre2 ++ [pytrimEnd l0]) h2]
              rfl

/-! ## C4 support: the boilerplate pass and trimming -/

/-- The empty line is not boilerplate. -/
theorem isBoilerplate_nil : isBoilerplate [] = false := by decide

/-- A leading whitespace trim cannot create a boilerplate line. -/
theorem noBpLines_dropWhile (l : List Char) (h : noBpLines l) :
    noBpLines (l.dropWhile pyWs) := by
  induction l with
  | nil => simpa using h
  | cons c rest ih =>
    by_cases hw : pyWs c
    · rw [List.dropWhile_cons_of_pos hw]
      apply ih
      intro line hline
      by_cases hc : c = '\n'
      · subst hc
        exact h line (by rw [splitNl_cons_nl]; exact List.mem_cons_of_mem _ hline)
      · cases hrest : splitNl rest with
        | nil => exact absurd hrest (splitNl_ne_nil rest)
        | cons l1 ls =>
          rw [hrest] at hline
          rcases List.mem_cons.mp hline with rfl | hline
          · have := h (c :: line) (by
              rw [splitNl_cons c rest hc line ls hrest]
              exact List.mem_cons_self _ _)
            rwa [pytrim_cons_ws c line hw] at this
          · exact h line (by
              rw [splitNl_cons c rest hc l1 ls hrest]
              exact List.mem_cons_of_mem _ hline)
    · rwa [List.dropWhile_cons_of_neg hw]

/-- A trailing whitespace trim cannot create a boilerplate line. -/
theorem noBpLines_pytrimEnd (l : List Char) (h : noBpLines l) :
    noBpLines (pytrimEnd l) := by
  obtain ⟨pre, l0, suf, h1, h2⟩ := pytrimEnd_splitNl l
  intro line hline
  rw [h2] at hline
  rcases List.mem_append.mp hline with hm | hm
  · exact h line (by rw [h1]; exact List.mem_append_left _ hm)
  · rw [List.mem_singleton] at hm
    subst hm
    rw [pytrim_pytrimEnd]
    exact h l0 (by rw [h1]; exact List.mem_append_right _ (List.mem_cons_self _ _))

/-- Trimming cannot create a boilerplate line. -/
theorem noBpLines_pytrim (l : List Char) (h : noBpLines l) : noBpLines (pytrim l) :=
  noBpLines_pytrimEnd _ (noBpLines_dropWhile l h)

/-- The boilerplate pass leaves no boilerplate lines behind. -/
theorem noBpLines_bpFilter (l : List Char) : noBpLines (boilerplateFilter l) := by
  unfold boilerplateFilter
  by_cases hls : (splitNl l).filter (fun line => !isBoilerplate (pytrim line)) = []
  · rw [hls]
    intro line hline
    simp only [joinNl, splitNl, List.mem_singleton] at hline
    subst hline
    simpa using isBoilerplate_nil
  · intro line hline
    rw [splitNl_joinNl _ hls (fun line2 h2 =>
      mem_splitNl_no_nl l line2 (List.mem_of_mem_filter h2))] at hline
    have := List.of_mem_filter hline
    simpa using this

/-- On a text with no boilerplate lines the boilerplate pass is the
identity. -/
theorem bpFilter_eq_self (l : List Char) (h : noBpLines l) : boilerplateFilter l = l := by
  unfold boilerplateFilter
  rw [List.filter_eq_self.mpr fun line hline => by simpa using h line hline, joinNl_splitNl]

/-! ## C4 support: tag safety -/

/-- Decomposition of tag safety across an append: the left part is
scanned in the context of the right part's head and `'>'` content. -/
theorem ltCond_append (a0 b : List Char) (next : Option Char) (g : Bool) :
    ltCond next g (a0 ++ b) = ltCond (b.head?.or next) (b.contains '>' || g) a0 := by
  cases a0 with
  | nil =>
    cases b with
    | nil => simp [ltCond]
    | cons d b0 =>
      simp only [List.nil_append, ltCond]
      by_cases hd : d = '>' <;> by_cases h2 : '>' ∈ b0 <;> cases g <;> simp_all
  | cons d a1 =>
    simp only [List.cons_append, ltCond]
    by_cases hd : d = '>' <;> by_cases h1 : '>' ∈ a1 <;>
      by_cases h2 : '>' ∈ b <;> cases g <;> simp_all

theorem tagSafe_append (a b : List Char) (next : Option Char) (g : Bool) :
    tagSafe next g (a ++ b) =
      (tagSafe (b.head?.or next) (b.contains '>' || g) a && tagSafe next g b) := by
  induction a with
  | nil => simp [tagSafe]
  | cons c a0 ih =>
    rw [List.cons_append]
    show ((if c = '<' then ltCond next g (a0 ++ b) else true) && tagSafe next g (a0 ++ b))
       = (((if c = '<' then ltCond (b.head?.or next) (b.contains '>' || g) a0 else true)
            && tagSafe (b.head?.or next) (b.contains '>' || g) a0) && tagSafe next g b)
    rw [ltCond_append, ih, Bool.and_assoc]

/-- The per-position condition only weakens when the context loses its
trailing `'>'`s. -/
theorem ltCond_mono (next : Option Char) (g g' : Bool) (hg : g' = true → g = true)
    (l : List Char) (h : ltCond next g l = true) : ltCond next g' l = true := by
  cases l with
  | nil =>
    simp only [ltCond] at h ⊢
    cases g <;> cases g' <;> simp_all
  | cons d rest =>
    simp only [ltCond] at h ⊢
    cases g <;> cases g' <;> simp_all

/-- The condition ignores a next character that is not `'>'`. -/
theorem ltCond_congr_next (next next' : Option Char) (g : Bool)
    (h1 : next ≠ some '>') (h2 : next' ≠ some '>') (l : List Char) :
    ltCond next g l = ltCond next' g l := by
  cases l with
  | nil => simp [ltCond, h1, h2]
  | cons d rest => rfl

/-- Tag safety is antitone in the beyond-`l` flag. -/
theorem tagSafe_mono (next : Option Char) (g g' : Bool) (hg : g' = true → g = true)
    (l : List Char) (h : tagSafe next g l = true) : tagSafe next g' l = true := by
  induction l with
  | nil => rfl
  | cons c rest ih =>
    simp only [tagSafe, Bool.and_eq_true] at h ⊢
    refine ⟨?_, ih h.2⟩
    by_cases hc : c = '<'
    · rw [if_pos hc] at h ⊢
      exact ltCond_mono next g g' hg rest h.1
    · rw [if_neg hc]

/-- Tag safety ignores a next character that is not `'>'`. -/
theorem tagSafe_congr_next (next next' : Option Char) (g : Bool)
    (h1 : next ≠ some '>') (h2 : next' ≠ some '>') (l : List Char) :
    tagSafe next g l = tagSafe next' g l := by
  induction l with
  | nil => rfl
  | cons c rest ih =>
    simp only [tagSafe]
    rw [ih]
    by_cases hc : c = '<'
    · rw [if_pos hc, if_pos hc, ltCond_congr_next next next' g h1 h2]
    · rw [if_neg hc, if_neg hc]

/-- A `'>'` is in a join exactly when it is in one of the lines. -/
theorem contains_joinNl (ls : List (List Char)) :
    (joinNl ls).contains '>' = anyGt ls := by
  induction ls with
  | nil => rfl
  | cons l rest ih =>
    cases rest with
    | nil => simp [joinNl, anyGt]
    | cons l2 rest2 =>
      show (l ++ '\n' :: joinNl (l2 :: rest2)).contains '>' = _
      simp only [anyGt] at ih ⊢
      simp only [List.any_cons]
      simp at ih
      simp [ih, List.mem_append]

/-- Tag safety of a join, line by line. -/
theorem tagSafe_joinNl (ls : List (List Char)) (g : Bool) :
    tagSafe none g (joinNl ls) = allSafe g ls := by
  induction ls with
  | nil => rfl
  | cons l rest ih =>
    cases rest with
    | nil =>
      show tagSafe none g l = (tagSafe none (anyGt [] || g) l && allSafe g [])
      simp [anyGt, allSafe]
    | cons l2 rest2 =>
      show tagSafe none g (l ++ '\n' :: joinNl (l2 :: rest2)) = _
      rw [tagSafe_append]
      have hnext : tagSafe (('\n' :: joinNl (l2 :: rest2)).head?.or none)
          (('\n' :: joinNl (l2 :: rest2)).contains '>' || g) l
          = tagSafe none (('\n' :: joinNl (l2 :: rest2)).contains '>' || g) l := by
        apply tagSafe_congr_next
        · simp
        · simp
      rw [hnext]
      have hcontains : ('\n' :: joinNl (l2 :: rest2)).contains '>' = anyGt (l2 :: rest2) := by
        rw [show (('\n' :: joinNl (l2 :: rest2)).contains '>')
              = ((joinNl (l2 :: rest2)).contains '>') from by simp, contains_joinNl]
      rw [hcontains]
      have htail : tagSafe none g ('\n' :: joinNl (l2 :: rest2))
          = tagSafe none g (joinNl (l2 :: rest2)) := by
        show ((if ('\n' : Char) = '<' then _ else true) && _) = _
        rw [if_neg (by decide), Bool.true_and]
      rw [htail, ih]
      rfl

/-- Any `'>'` among the kept lines was already there. -/
theorem anyGt_filter (p : List Char → Bool) (ls : List (List Char))
    (h : anyGt (ls.filter p) = true) : anyGt ls = true := by
  simp only [anyGt, List.any_eq_true] at h ⊢
  obtain ⟨x, hx, hgt⟩ := h
  exact ⟨x, List.mem_of_mem_filter hx, hgt⟩

/-- Dropping lines preserves per-line tag safety. -/
theorem allSafe_filter (p : List Char → Bool) (ls : List (List Char)) (g : Bool)
    (h : allSafe g ls = true) : allSafe g (ls.filter p) = true := by
  induction ls with
  | nil => rfl
  | cons l rest ih =>
    simp only [allSafe, Bool.and_eq_true] at h
    by_cases hp : p l
    · rw [List.filter_cons_of_pos hp]
      simp only [allSafe, Bool.and_eq_true]
      refine ⟨?_, ih h.2⟩
      apply tagSafe_mono none (anyGt rest || g) (anyGt (List.filter p rest) || g) ?_ l h.1
      intro hgt
      simp only [Bool.or_eq_true] at hgt ⊢
      rcases hgt with hgt | hgt
      · exact Or.inl (anyGt_filter p rest hgt)
      · exact Or.inr hgt
    · rw [List.filter_cons_of_neg hp]
      exact ih h.2

/-! ## C4 support: the tag-stripping pass produces and fixes safety -/

/-- Skipping a match only removes characters. -/
theorem afterGt_sublist (l : List Char) : (afterGt l).Sublist l := by
  induction l with
  | nil => simp [afterGt]
  | cons c rest ih =>
    simp only [afterGt]
    by_cases hc : c = '>'
    · rw [if_pos hc]
      exact (List.Sublist.refl rest).cons c
    · rw [if_neg hc]
      exact ih.cons c

/-- Skipping a present match strictly shortens the input. -/
theorem afterGt_length_lt (l : List Char) (h : l.contains '>' = true) :
    (afterGt l).length < l.length := by
  induction l with
  | nil => simp at h
  | cons c rest ih =>
    simp only [afterGt]
    by_cases hc : c = '>'
    · rw [if_pos hc]
      simp
    · rw [if_neg hc]
      have hrest : rest.contains '>' = true := by
        simp only [List.contains_cons, Bool.or_eq_true] at h
        rcases h with h | h
        · exact absurd (by simpa using h : ('>' : Char) = c).symm hc
        · exact h
      have := ih hrest
      simp only [List.length_cons]
      omega

/-- The scan only removes characters. -/
theorem stripTagsAux_sublist : ∀ (fuel : Nat) (l : List Char), (stripTagsAux fuel l).Sublist l := by
  intro fuel
  induction fuel with
  | zero => intro l; exact List.Sublist.refl l
  | succ n ih =>
    intro l
    cases l with
    | nil => simp [stripTagsAux]
    | cons c rest =>
      simp only [stripTagsAux]
      by_cases hc : c = '<'
      · subst hc
        rw [if_pos rfl]
        cases rest with
        | nil => exact List.Sublist.refl _
        | cons d rest2 =>
          show (if (decide (d = '>') || !((d :: rest2).contains '>')) = true
                then '<' :: stripTagsAux n (d :: rest2)
                else stripTagsAux n (afterGt (d :: rest2))).Sublist ('<' :: d :: rest2)
          by_cases hcond : (decide (d = '>') || !((d :: rest2).contains '>')) = true
          · rw [if_pos hcond]
            exact (ih (d :: rest2)).cons₂ '<'
          · rw [if_neg hcond]
            exact ((ih (afterGt (d :: rest2))).trans (afterGt_sublist _)).cons '<'
      · rw [if_neg hc]
        exact (ih rest).cons₂ c

/-- The condition holds trivially where no `'>'` remains. -/
theorem ltCond_of_not_contains (next : Option Char) (x : List Char)
    (h : x.contains '>' = false) : ltCond next false x = true := by
  cases x with
  | nil => simp [ltCond]
  | cons d rest =>
    simp only [ltCond, h]
    simp

/-- The head of the scan of a `'>'`-headed input is that `'>'`. -/
theorem stripTagsAux_gt_head (n : Nat) (x : List Char) :
    ∃ y, stripTagsAux n ('>' :: x) = '>' :: y := by
  cases n with
  | zero => exact ⟨x, rfl⟩
  | succ m =>
    refine ⟨stripTagsAux m x, ?_⟩
    simp [stripTagsAux]

/-- The scan's output is tag-safe: no tag match survives one pass. -/
theorem tagFree_stripTagsAux :
    ∀ (fuel : Nat) (l : List Char), l.length ≤ fuel →
      tagSafe none false (stripTagsAux fuel l) = true := by
  intro fuel
  induction fuel with
  | zero =>
    intro l hl
    rw [List.length_eq_zero.mp (Nat.le_zero.mp hl)]
    rfl
  | succ n ih =>
    intro l hl
    cases l with
    | nil => rfl
    | cons c rest =>
      simp only [stripTagsAux]
      by_cases hc : c = '<'
      · subst hc
        rw [if_pos rfl]
        cases rest with
        | nil => rfl
        | cons d rest2 =>
          show tagSafe none false
              (if (decide (d = '>') || !((d :: rest2).contains '>')) = true
               then '<' :: stripTagsAux n (d :: rest2)
               else stripTagsAux n (afterGt (d :: rest2))) = true
          by_cases hcond : (decide (d = '>') || !((d :: rest2).contains '>')) = true
          · rw [if_pos hcond]
            show ((if ('<' : Char) = '<' then
                    ltCond none false (stripTagsAux n (d :: rest2)) else true)
                  && tagSafe none false (stripTagsAux n (d :: rest2))) = true
            rw [if_pos rfl, Bool.and_eq_true]
            refine ⟨?_, ih (d :: rest2) (by simpa using Nat.le_of_succ_le_succ hl)⟩
            rcases (Bool.or_eq_true _ _).mp hcond with hd | hnc
            · have hd2 : d = '>' := by simpa using hd
              subst hd2
              obtain ⟨y, hy⟩ := stripTagsAux_gt_head n rest2
              rw [hy]
              simp [ltCond]
            · apply ltCond_of_not_contains
              cases hsc : (stripTagsAux n (d :: rest2)).contains '>' with
              | false => rfl
              | true =>
                exfalso
                have hmem : '>' ∈ stripTagsAux n (d :: rest2) := by simpa using hsc
                have hmem2 : '>' ∈ d :: rest2 :=
                  (stripTagsAux_sublist n (d :: rest2)).subset hmem
                have hco : (d :: rest2).contains '>' = true := by simpa using hmem2
                rw [hco] at hnc
                simp at hnc
          · rw [if_neg hcond]
            apply ih
            have hcont : (d :: rest2).contains '>' = true := by
              cases hb : (d :: rest2).contains '>' with
              | false => rw [hb] at hcond; simp at hcond
              | true => rfl
            have := afterGt_length_lt (d :: rest2) hcont
            simp only [List.length_cons] at hl this ⊢
            omega
      · rw [if_neg hc]
        show ((if c = '<' then ltCond none false (stripTagsAux n rest) else true)
              && tagSafe none false (stripTagsAux n rest)) = true
        rw [if_neg hc, Bool.true_and]
        exact ih rest (by simpa using Nat.le_of_succ_le_succ hl)

/-- On a tag-safe input the scan is the identity. -/
theorem stripTagsAux_fix :
    ∀ (fuel : Nat) (l : List Char), l.length ≤ fuel →
      tagSafe none false l = true → stripTagsAux fuel l = l := by
  intro fuel
  induction fuel with
  | zero =>
    intro l _ _
    rfl
  | succ n ih =>
    intro l hl hsafe
    cases l with
    | nil => rfl
    | cons c rest =>
      simp only [stripTagsAux]
      by_cases hc : c = '<'
      · subst hc
        rw [if_pos rfl]
        cases rest with
        | nil => rfl
        | cons d rest2 =>
          have hsafe2 : ltCond none false (d :: rest2) = true ∧
              tagSafe none false (d :: rest2) = true := by
            have h0 : ((if ('<' : Char) = '<' then ltCond none false (d :: rest2) else true)
                && tagSafe none false (d :: rest2)) = true := hsafe
            rw [if_pos rfl, Bool.and_eq_true] at h0
            exact h0
          show (if (decide (d = '>') || !((d :: rest2).contains '>')) = true
                then '<' :: stripTagsAux n (d :: rest2)
                else stripTagsAux n (afterGt (d :: rest2))) = '<' :: d :: rest2
          by_cases hcond : (decide (d = '>') || !((d :: rest2).contains '>')) = true
          · rw [if_pos hcond]
            rw [ih (d :: rest2) (by simpa using Nat.le_of_succ_le_succ hl) hsafe2.2]
          · rw [if_neg hcond]
            exfalso
            have hc1 : ¬ d = '>' := by
              intro hd
              exact hcond (by simp [hd])
            have hc2 : (d :: rest2).contains '>' = true := by
              cases hb : (d :: rest2).contains '>' with
              | false => exact absurd (by rw [hb]; simp) hcond
              | true => rfl
            have hlt := hsafe2.1
            simp only [ltCond, hc2] at hlt
            simp [hc1] at hlt
      · rw [if_neg hc]
        have hsafe2 : tagSafe none false rest = true := by
          simp only [tagSafe, if_neg hc, Bool.true_and] at hsafe
          exact hsafe
        rw [ih rest (by simpa using Nat.le_of_succ_le_succ hl) hsafe2]

/-- The tag-stripping pass produces a tag-free text. -/
theorem tagFree_stripTags (l : List Char) : tagFree (stripTags l) = true :=
  tagFree_stripTagsAux l.length l (Nat.le_refl _)

/-- The tag-stripping pass fixes tag-free texts. -/
theorem stripTags_fix (l : List Char) (h : tagFree l = true) : stripTags l = l :=
  stripTagsAux_fix l.length l (Nat.le_refl _) h

/-! ## C4 support: trims and line filtering preserve tag safety -/

/-- Whitespace is never `'<'` or `'>'`. -/
theorem pyWs_ne_lt (c : Char) (h : pyWs c = true) : c ≠ '<' := by
  intro hc
  subst hc
  simp [pyWs] at h

/-- Whitespace is never `'>'`. -/
theorem pyWs_ne_gt (c : Char) (h : pyWs c = true) : c ≠ '>' := by
  intro hc
  subst hc
  simp [pyWs] at h

/-- A trailing-whitespace trim of one line preserves its tag
safety. -/
theorem tagSafe_pytrimEnd_line (g : Bool) (l : List Char) (h : tagSafe none g l = true) :
    tagSafe none g (pytrimEnd l) = true := by
  induction l with
  | nil => exact h
  | cons c rest ih =>
    have h0 : ((if c = '<' then ltCond none g rest else true) && tagSafe none g rest) = true := h
    rw [Bool.and_eq_true] at h0
    cases hr : pytrimEnd rest with
    | nil =>
      show tagSafe none g
        (match pytrimEnd rest with
         | [] => if pyWs c then [] else [c]
         | r => c :: r) = true
      rw [hr]
      by_cases hw : pyWs c = true
      · rw [if_pos hw]
        rfl
      · rw [if_neg hw]
        show ((if c = '<' then ltCond none g [] else true) && tagSafe none g []) = true
        by_cases hlt : c = '<'
        · rw [if_pos hlt, Bool.and_eq_true]
          refine ⟨?_, rfl⟩
          have hcnd : ltCond none g rest = true := by
            have := h0.1
            rwa [if_pos hlt] at this
          have hg : g = false := by
            cases rest with
            | nil =>
              simp only [ltCond] at hcnd
              simpa using hcnd
            | cons d rest3 =>
              have hall := pytrimEnd_eq_nil _ hr
              have hd : ¬ d = '>' :=
                pyWs_ne_gt d (hall d (List.mem_cons_self _ _))
              have hnc : (d :: rest3).contains '>' = false := by
                cases hcc : (d :: rest3).contains '>' with
                | false => rfl
                | true =>
                  exfalso
                  have hm : '>' ∈ d :: rest3 := by simpa using hcc
                  exact pyWs_ne_gt '>' (hall '>' hm) rfl
              simp only [ltCond, hnc] at hcnd
              simp only [hd, decide_eq_true_eq] at hcnd
              simpa [hd] using hcnd
          simp [ltCond, hg]
        · rw [if_neg hlt]
          rfl
    | cons x xs =>
      show tagSafe none g
        (match pytrimEnd rest with
         | [] => if pyWs c then [] else [c]
         | r => c :: r) = true
      rw [hr]
      show ((if c = '<' then ltCond none g (x :: xs) else true) && tagSafe none g (x :: xs)) = true
      rw [Bool.and_eq_true]
      refine ⟨?_, by have := ih h0.2; rwa [hr] at this⟩
      by_cases hlt : c = '<'
      · rw [if_pos hlt]
        have hcnd : ltCond none g rest = true := by
          have := h0.1
          rwa [if_pos hlt] at this
        cases rest with
        | nil => exact absurd hr (by simp [pytrimEnd])
        | cons d rest3 =>
          simp only [ltCond, Bool.or_eq_true] at hcnd
          rcases hcnd with hd | hrest2
          · have hd2 : d = '>' := by simpa using hd
            subst hd2
            have hx : x = '>' := by
              cases hr3 : pytrimEnd rest3 with
              | nil =>
                have : pytrimEnd ('>' :: rest3) = ['>'] := by
                  simp [pytrimEnd, hr3, pyWs]
                rw [this] at hr
                exact (List.cons.injEq .. ▸ hr).1.symm
              | cons y ys =>
                have : pytrimEnd ('>' :: rest3) = '>' :: y :: ys := by
                  simp [pytrimEnd, hr3]
                rw [this] at hr
                exact (List.cons.injEq .. ▸ hr).1.symm
            subst hx
            simp [ltCond]
          · rw [Bool.and_eq_true] at hrest2
            have hnc : (x :: xs).contains '>' = false := by
              cases hcc : (x :: xs).contains '>' with
              | false => rfl
              | true =>
                exfalso
                have hm : '>' ∈ x :: xs := by simpa using hcc
                have hm2 : '>' ∈ d :: rest3 := by
                  have hsub := pytrimEnd_sublist (d :: rest3)
                  rw [hr] at hsub
                  exact hsub.subset hm
                have : (d :: rest3).contains '>' = true := by simpa using hm2
                rw [this] at hrest2
                simp at hrest2
            simp only [ltCond, hnc, Bool.or_eq_true, Bool.and_eq_true]
            right
            exact ⟨by simp, hrest2.2⟩
      · rw [if_neg hlt]

/-- A leading-whitespace trim preserves tag freedom. -/
theorem tagFree_dropWhile (l : List Char) (h : tagFree l = true) :
    tagFree (l.dropWhile pyWs) = true := by
  induction l with
  | nil => exact h
  | cons c rest ih =>
    by_cases hw : pyWs c = true
    · rw [List.dropWhile_cons_of_pos hw]
      apply ih
      have h0 : ((if c = '<' then ltCond none false rest else true)
          && tagSafe none false rest) = true := h
      rw [Bool.and_eq_true] at h0
      exact h0.2
    · rwa [List.dropWhile_cons_of_neg hw]

/-- Any `'>'` in a sublist's line is in the original line. -/
theorem anyGt_mono_line (x y : List Char) (hsub : x.Sublist y)
    (h : x.contains '>' = true) : y.contains '>' = true := by
  have hm : '>' ∈ x := by simpa using h
  simpa using hsub.subset hm

/-- Replacing the distinguished line by its trailing trim and dropping
the rest preserves per-line safety. -/
theorem allSafe_trim_lines (g : Bool) :
    ∀ (pre : List (List Char)) (l0 : List Char) (suf : List (List Char)),
      allSafe g (pre ++ l0 :: suf) = true → allSafe g (pre ++ [pytrimEnd l0]) = true := by
  intro pre
  induction pre with
  | nil =>
    intro l0 suf h
    simp only [List.nil_append, allSafe, Bool.and_eq_true] at h ⊢
    refine ⟨?_, trivial⟩
    have h1 := tagSafe_mono none (anyGt suf || g) g (by intro hg; simp [hg]) l0 h.1
    have h2 := tagSafe_pytrimEnd_line g l0 h1
    apply tagSafe_mono none g (anyGt [] || g) ?_ _ h2
    intro hh
    simpa [anyGt] using hh
  | cons p pre2 ih =>
    intro l0 suf h
    simp only [List.cons_append, allSafe, Bool.and_eq_true] at h ⊢
    refine ⟨?_, ih l0 suf h.2⟩
    apply tagSafe_mono none (anyGt (pre2 ++ l0 :: suf) || g)
      (anyGt (pre2 ++ [pytrimEnd l0]) || g) ?_ p h.1
    intro hh
    simp only [anyGt, List.any_append, Bool.or_eq_true, List.any_cons] at hh ⊢
    rcases hh with hh | hh
    · rcases hh with hh | hh
      · exact Or.inl (Or.inl hh)
      · rcases hh with hh | hh
        · exact Or.inl (Or.inr (Or.inl (anyGt_mono_line _ _ (pytrimEnd_sublist l0) hh)))
        · simp [anyGt] at hh
    · exact Or.inr hh

/-- A trailing trim of the whole text preserves tag freedom. -/
theorem tagFree_pytrimEnd (l : List Char) (h : tagFree l = true) :
    tagFree (pytrimEnd l) = true := by
  obtain ⟨pre, l0, suf, h1, h2⟩ := pytrimEnd_splitNl l
  have ha : allSafe false (splitNl l) = true := by
    rw [← tagSafe_joinNl, joinNl_splitNl]
    exact h
  rw [h1] at ha
  have hb := allSafe_trim_lines false pre l0 suf ha
  show tagSafe none false (pytrimEnd l) = true
  rw [← joinNl_splitNl (pytrimEnd l), h2, tagSafe_joinNl]
  exact hb

/-- The full trim preserves tag freedom. -/
theorem tagFree_pytrim (l : List Char) (h : tagFree l = true) :
    tagFree (pytrim l) = true :=
  tagFree_pytrimEnd _ (tagFree_dropWhile l h)

/-- The boilerplate pass preserves tag freedom. -/
theorem tagFree_bpFilter (l : List Char) (h : tagFree l = true) :
    tagFree (boilerplateFilter l) = true := by
  unfold boilerplateFilter
  show tagSafe none false _ = true
  rw [tagSafe_joinNl]
  apply allSafe_filter
  rw [← tagSafe_joinNl, joinNl_splitNl]
  exact h

/-! ## C4: cleaner idempotence -/

/-- With whitespace normalization off, one cleaning pass is the
optional tag strip, then the optional boilerplate pass, then the
trim. -/
theorem cleanChars_eq (svc : CleanerService) (hws : svc.normalize_whitespace = false)
    (t : List Char) (ht : ¬ t = []) :
    cleanChars svc t =
      pytrim (if svc.remove_boilerplate = true
              then boilerplateFilter (if svc.remove_html = true then stripTags t else t)
              else (if svc.remove_html = true then stripTags t else t)) := by
  unfold cleanChars
  rw [if_neg ht, hws]
  simp

/-- With whitespace normalization off, cleaning a text twice is
cleaning it once. -/
theorem cleanChars_idem (svc : CleanerService) (hws : svc.normalize_whitespace = false)
    (s : List Char) : cleanChars svc (cleanChars svc s) = cleanChars svc s := by
  by_cases hs : s = []
  · subst hs
    rfl
  · rw [cleanChars_eq svc hws s hs]
    set u := (if svc.remove_html = true then stripTags s else s) with hu
    set y := pytrim (if svc.remove_boilerplate = true then boilerplateFilter u else u) with hy
    by_cases hy0 : y = []
    · rw [hy0]
      rfl
    · rw [cleanChars_eq svc hws y hy0]
      have htagy : svc.remove_html = true → tagFree y = true := by
        intro hh
        have h1 : tagFree u = true := by
          rw [hu, if_pos hh]
          exact tagFree_stripTags s
        have h2 : tagFree (if svc.remove_boilerplate = true then boilerplateFilter u else u)
            = true := by
          by_cases hbp : svc.remove_boilerplate = true
          · rw [if_pos hbp]
            exact tagFree_bpFilter u h1
          · rw [if_neg hbp]
            exact h1
        rw [hy]
        exact tagFree_pytrim _ h2
      have hhtml_y : (if svc.remove_html = true then stripTags y else y) = y := by
        by_cases hh : svc.remove_html = true
        · rw [if_pos hh]
          exact stripTags_fix y (htagy hh)
        · rw [if_neg hh]
      rw [hhtml_y]
      have hbp_y : (if svc.remove_boilerplate = true then boilerplateFilter y else y) = y := by
        by_cases hbp : svc.remove_boilerplate = true
        · rw [if_pos hbp]
          apply bpFilter_eq_self
          have h1 : noBpLines (if svc.remove_boilerplate = true then boilerplateFilter u else u) := by
            rw [if_pos hbp]
            exact noBpLines_bpFilter u
          rw [hy]
          exact noBpLines_pytrim _ h1
        · rw [if_neg hbp]
      rw [hbp_y, hy]
      exact pytrim_idem _

/-- String-level cleaning idempotence. -/
theorem cleanText_idem (svc : CleanerService) (hws : svc.normalize_whitespace = false)
    (text : String) : svc.cleanText (svc.cleanText text) = svc.cleanText text := by
  show String.mk (cleanChars svc (cleanChars svc text.data)) = String.mk (cleanChars svc text.data)
  rw [cleanChars_idem svc hws]

/-- A `filterMap` whose hits are fixed points of the step is
idempotent. -/
theorem filterMap_idem_of {α : Type _} (f : α → Option α)
    (hf : ∀ a b, f a = some b → f b = some b) :
    ∀ l : List α, (l.filterMap f).filterMap f = l.filterMap f := by
  intro l
  induction l with
  | nil => rfl
  | cons a l ih =>
    cases hfa : f a with
    | none => simp only [List.filterMap_cons, hfa, ih]
    | some b =>
      simp only [List.filterMap_cons, hfa, hf a b hfa, ih]

/-- The per-message cleaning step is a fixed point on its own output
when whitespace normalization is off. -/
theorem cleanMessage_fix (svc : CleanerService) (hws : svc.normalize_whitespace = false)
    (a b : Message) (hab : svc.cleanMessage a = some b) : svc.cleanMessage b = some b := by
  unfold CleanerService.cleanMessage at hab ⊢
  split at hab
  · exact Option.noConfusion hab
  · rename_i hrole
    dsimp only at hab
    split at hab
    · exact Option.noConfusion hab
    · rename_i hblank
      obtain rfl := (Option.some.injEq _ _).mp hab
      rw [if_neg hrole]
      dsimp only
      rw [cleanText_idem svc hws a.text, if_neg hblank]

/-- Claim C4 counterexample: with only whitespace normalization on,
the tab rewrite runs after the space collapse and turns `a \t b` into
`a   b`, which a second pass collapses further to `a b` — two passes
differ from one. -/
theorem claim_C4_cleaner_idempotence_counterexample :
    ((CleanerService.process ⟨false, false, false, true⟩ (demoChat "a \t b")).messages.map
        Message.text = ["a   b"]) ∧
    ((CleanerService.process ⟨false, false, false, true⟩
        (CleanerService.process ⟨false, false, false, true⟩ (demoChat "a \t b"))).messages.map
        Message.text = ["a b"]) ∧
    ("a   b" : String) ≠ "a b" :=
  ⟨by decide, by decide, by decide⟩

/-- Claim C4 amended: the cleaner is idempotent for every
configuration with whitespace normalization disabled — HTML-tag
stripping, boilerplate line removal, system-message removal and
trimming compose idempotently.  With whitespace normalization enabled
idempotence fails: the tab rewrite runs after the space collapse and
can create new space runs (the counterexample), and boilerplate line
removal can create newline runs that only the next pass collapses. -/
theorem claim_C4_cleaner_idempotence_amended :
    ∀ svc : CleanerService, svc.normalize_whitespace = false →
      ∀ chat : UniversalChat,
        CleanerService.process svc (CleanerService.process svc chat) =
          CleanerService.process svc chat := by
  intro svc hws chat
  show (⟨chat.id, chat.source, chat.source_file, chat.title, chat.created_at,
        chat.updated_at, (chat.messages.filterMap svc.cleanMessage).filterMap svc.cleanMessage,
        chat.tags, chat.token_count⟩ : UniversalChat)
      = ⟨chat.id, chat.source, chat.source_file, chat.title, chat.created_at,
        chat.updated_at, chat.messages.filterMap svc.cleanMessage, chat.tags, chat.token_count⟩
  rw [filterMap_idem_of svc.cleanMessage (cleanMessage_fix svc hws)]

/-- Claim C4 witness: the amended idempotence at a concrete
configuration (strip tags, drop boilerplate lines, keep system
messages, no whitespace normalization) on a concrete chat. -/
theorem claim_C4_cleaner_idempotence_amended_witness :
    CleanerService.process ⟨true, true, false, false⟩
        (CleanerService.process ⟨true, true, false, false⟩
          (demoChat "Hi <b>you</b>\nAs an AI, I will not.\nBye")) =
      CleanerService.process ⟨true, true, false, false⟩
        (demoChat "Hi <b>you</b>\nAs an AI, I will not.\nBye") :=
  claim_C4_cleaner_idempotence_amended ⟨true, true, false, false⟩ rfl
    (demoChat "Hi <b>you</b>\nAs an AI, I will not.\nBye")

end Klaros
